import Mathlib

/-!
# The nvshm shared queue (drivers/staging/nvshm/nvshm_queue.c)

A shallow embedding of the queue core of the nvshm driver: the two cache
maintenance traversals `flush_iob_list` and `inv_iob_list`, the queue operations
`nvshm_queue_get` and `nvshm_queue_put`, the geometry check `nvshm_init_queue`
and the drain loop `nvshm_process_queue`.

Pointers are natural numbers, `0` is `NULL`.  The shared region is a heap that
maps an address to the descriptor stored there.  Everything the code does to the
outside world (cache maintenance, barriers, calls into the buffer-cluster
collaborator, log lines, the lock, channel callbacks) and every access to a
descriptor field is appended, in program order, to a trace of events.
Code that lives outside this file (`nvshm_iobuf_ref_cluster`,
`nvshm_iobuf_free_cluster`, the `rx_event` callback) and the cache and barrier
primitives are recorded as events and have no other effect on the state.
The drain brackets each of its calls of `nvshm_queue_get` with a call event and
a return event that carries the pointer returned.
The two `while` loops of the traversals and the loop of the drain take fuel, one
unit for each run of the loop body: they return `none` when the fuel is used up
while the loop condition still holds.
-/

namespace Nvshm

/-! ## Machine arithmetic -/

/-- The number of values of a 32-bit word: the code casts pointers to `int`. -/
def W : Nat := 4294967296

/-- The cast `(int)x` of a 32-bit value. -/
def toInt32 (n : Nat) : Int :=
  if n % W < 2147483648 then ((n % W : Nat) : Int) else ((n % W : Nat) : Int) - 4294967296

/-- Wrap an integer to the range of `int`. -/
def wrapInt32 (i : Int) : Int :=
  if i % 4294967296 < 2147483648 then i % 4294967296 else i % 4294967296 - 4294967296

/-- The errno value `EINVAL`. -/
def EINVAL : Int := 22

/-- The errno value `ENOMEM`. -/
def ENOMEM : Int := 12

/-! ## Data model -/

/-- The fields of `struct nvshm_iobuf` that nvshm_queue.c accesses.  Link fields
(`next`, `sg_next`, `qnext`) and `npduData` hold peer-side addresses. -/
structure nvshm_iobuf where
  npduData : Nat
  length : Nat
  dataOffset : Nat
  pool_id : Nat
  next : Nat
  sg_next : Nat
  qnext : Nat
  chan : Int
  deriving DecidableEq, Repr

/-- The fields of `struct nvshm_config` that nvshm_queue.c accesses. -/
structure nvshm_config where
  queue_bb_offset : Int
  shmem_size : Int
  deriving DecidableEq, Repr

/-- The fields of `struct nvshm_handle` that nvshm_queue.c accesses.  `chan_ops c`
says whether `handle->chan[c].ops` is non-null. -/
structure nvshm_handle where
  instance_id : Int
  ipc_base_virt : Nat
  desc_base_virt : Nat
  desc_size : Nat
  shared_queue_head : Nat
  shared_queue_tail : Nat
  conf : nvshm_config
  chan_ops : Int → Bool

/-- Names of the descriptor fields, for the access events of the trace. -/
inductive Field
  | npduData | length | dataOffset | pool_id | next | sg_next | qnext | chan
  deriving DecidableEq, Repr

/-- The `pr_err` lines of the file. -/
inductive ErrMsg
  | get_not_init | out_of_bound | put_not_init | put_null | put_illegal
  | init_no_base | init_bad_size
  deriving DecidableEq, Repr

/-- What the code does, in program order. -/
inductive Event
  | flush (va size : Nat)
  | inv (va size : Nat)
  | dsb
  | read (node : Nat) (f : Field)
  | write_qnext (node val : Nat)
  | set_head (p : Nat)
  | set_tail (p : Nat)
  | set_offset (v : Int)
  | ref_cluster (iob : Nat)
  | free_cluster (chan : Int) (iob : Nat)
  | pr_err (m : ErrMsg)
  | pr_debug
  | lock
  | unlock
  | rx_event (chan : Int) (iob : Nat)
  | get_call
  | get_ret (p : Nat)
  deriving DecidableEq, Repr

/-- The shared region: the descriptor stored at each address. -/
abbrev Mem := Nat → nvshm_iobuf

/-- What nvshm_queue.c takes from headers that are not part of the source tree at
hand: the two address translation macros `NVSHM_A2B` (local to peer) and
`NVSHM_B2A` (peer to local) of one instance, `sizeof(struct nvshm_iobuf)` and
the pool threshold `NVSHM_AP_POOL_ID`.  They are parameters of the embedding. -/
structure Platform where
  A2B : Nat → Nat
  B2A : Nat → Nat
  sizeof_iobuf : Nat
  AP_POOL_ID : Nat

/-- Modelled from the spec: the translation macros `NVSHM_A2B` and `NVSHM_B2A` are
declared in nvshm_priv.h, which is missing.  The spec describes them as an
offset-translation scheme between the local pointer view and the peer-relative
representation: two pure total functions.  Here the peer address of a local
pointer is its offset from the local base `ipc_base` plus the peer base
`bb_base`, in 32-bit arithmetic, and the other direction undoes it. -/
def offsetPlatform (ipc_base bb_base size pool : Nat) : Platform where
  A2B := fun x => (x + bb_base + (W - ipc_base % W)) % W
  B2A := fun x => (x + ipc_base + (W - bb_base % W)) % W
  sizeof_iobuf := size
  AP_POOL_ID := pool

/-- The state the code works on: the handle, the shared region and the trace. -/
structure State where
  handle : nvshm_handle
  mem : Mem
  trace : List Event

/-- The store `node->qnext = v`. -/
def setQnext (mem : Mem) (node v : Nat) : Mem :=
  fun a => if a = node then { mem node with qnext := v } else mem a

/-! ## The cache maintenance traversals -/

/-- The inner `while (leaf)` loop of `flush_iob_list`. -/
def flush_leaf (P : Platform) (mem : Mem) : Nat → Nat → Option (List Event)
  | 0, leaf => if leaf = 0 then some [] else none
  | fuel + 1, leaf =>
    if leaf = 0 then some []
    else
      let rec_ev := [Event.flush leaf P.sizeof_iobuf, Event.read leaf Field.length]
      let data_ev :=
        if (mem leaf).length ≠ 0 then
          [Event.read leaf Field.npduData, Event.read leaf Field.dataOffset,
           Event.read leaf Field.length,
           Event.flush (P.B2A (((mem leaf).npduData + (mem leaf).dataOffset) % W))
             (mem leaf).length]
        else []
      let link_ev :=
        if (mem leaf).sg_next ≠ 0 then
          [Event.read leaf Field.sg_next, Event.read leaf Field.sg_next]
        else [Event.read leaf Field.sg_next]
      let nxt := if (mem leaf).sg_next ≠ 0 then P.B2A (mem leaf).sg_next else 0
      (flush_leaf P mem fuel nxt).map (fun r => rec_ev ++ data_ev ++ link_ev ++ r)

/-- The function `flush_iob_list`: the outer `while (phy_list)` loop. -/
def flush_iob_list (P : Platform) (mem : Mem) : Nat → Nat → Option (List Event)
  | 0, phy_list => if phy_list = 0 then some [] else none
  | fuel + 1, phy_list =>
    if phy_list = 0 then some []
    else
      match flush_leaf P mem fuel phy_list with
      | none => none
      | some leaves =>
        let link_ev :=
          if (mem phy_list).next ≠ 0 then
            [Event.read phy_list Field.next, Event.read phy_list Field.next]
          else [Event.read phy_list Field.next]
        let nxt := if (mem phy_list).next ≠ 0 then P.B2A (mem phy_list).next else 0
        (flush_iob_list P mem fuel nxt).map (fun r => leaves ++ link_ev ++ r)

/-- The inner `while (leaf)` loop of `inv_iob_list`. -/
def inv_leaf (P : Platform) (mem : Mem) : Nat → Nat → Option (List Event)
  | 0, leaf => if leaf = 0 then some [] else none
  | fuel + 1, leaf =>
    if leaf = 0 then some []
    else
      let rec_ev := [Event.inv leaf P.sizeof_iobuf, Event.read leaf Field.length]
      let data_ev :=
        if (mem leaf).length ≠ 0 then
          [Event.read leaf Field.npduData, Event.read leaf Field.dataOffset,
           Event.read leaf Field.length,
           Event.inv (P.B2A (((mem leaf).npduData + (mem leaf).dataOffset) % W))
             (mem leaf).length]
        else []
      let link_ev :=
        if (mem leaf).sg_next ≠ 0 then
          [Event.read leaf Field.sg_next, Event.read leaf Field.sg_next]
        else [Event.read leaf Field.sg_next]
      let nxt := if (mem leaf).sg_next ≠ 0 then P.B2A (mem leaf).sg_next else 0
      (inv_leaf P mem fuel nxt).map (fun r => rec_ev ++ data_ev ++ link_ev ++ r)

/-- The function `inv_iob_list`: the outer `while (phy_list)` loop. -/
def inv_iob_list (P : Platform) (mem : Mem) : Nat → Nat → Option (List Event)
  | 0, phy_list => if phy_list = 0 then some [] else none
  | fuel + 1, phy_list =>
    if phy_list = 0 then some []
    else
      match inv_leaf P mem fuel phy_list with
      | none => none
      | some leaves =>
        let link_ev :=
          if (mem phy_list).next ≠ 0 then
            [Event.read phy_list Field.next, Event.read phy_list Field.next]
          else [Event.read phy_list Field.next]
        let nxt := if (mem phy_list).next ≠ 0 then P.B2A (mem phy_list).next else 0
        (inv_iob_list P mem fuel nxt).map (fun r => leaves ++ link_ev ++ r)

/-! ## The queue operations -/

/-- The function `nvshm_queue_get`.  The result is the returned pointer and the
state after the call; `none` when the invalidate traversal runs out of fuel. -/
def nvshm_queue_get (P : Platform) (fuel : Nat) (s : State) : Option (Nat × State) :=
  if s.handle.shared_queue_head = 0 then
    some (0, { s with trace := s.trace ++ [Event.pr_err ErrMsg.get_not_init] })
  else
    let dummy := s.handle.shared_queue_head
    let ret := P.B2A (s.mem dummy).qnext
    let head_ev := [Event.inv dummy P.sizeof_iobuf, Event.read dummy Field.qnext,
                    Event.read dummy Field.qnext]
    if (s.mem dummy).qnext = 0 then
      some (0, { s with trace := s.trace ++ head_ev })
    else
      match inv_iob_list P s.mem fuel ret with
      | none => none
      | some inv_ev =>
        let mem1 := setQnext s.mem dummy 0
        let off := wrapInt32 (toInt32 ret - toInt32 s.handle.ipc_base_virt)
        let conf1 : nvshm_config := { s.handle.conf with queue_bb_offset := off }
        let handle1 : nvshm_handle :=
          { s.handle with shared_queue_head := ret, conf := conf1 }
        let check_ev :=
          if off < 0 ∨ off > conf1.shmem_size then [Event.pr_err ErrMsg.out_of_bound]
          else []
        let free_ev := [Event.read dummy Field.chan,
                        Event.free_cluster (mem1 dummy).chan dummy]
        some (ret,
          { handle := handle1
            mem := mem1
            trace := s.trace ++ head_ev ++ inv_ev
              ++ [Event.write_qnext dummy 0, Event.set_head ret, Event.set_offset off]
              ++ check_ev ++ free_ev })

/-- The function `nvshm_queue_put`.  The result is the returned status and the
state after the call; `none` when the flush traversal runs out of fuel. -/
def nvshm_queue_put (P : Platform) (fuel : Nat) (s : State) (iob : Nat) :
    Option (Int × State) :=
  if s.handle.shared_queue_tail = 0 then
    some (-EINVAL, { s with trace := s.trace ++ [Event.pr_err ErrMsg.put_not_init] })
  else if iob = 0 then
    some (-EINVAL, { s with trace := s.trace ++ [Event.pr_err ErrMsg.put_null] })
  else
    let tail := s.handle.shared_queue_tail
    if (s.mem tail).qnext ≠ 0 then
      some (-EINVAL,
        { s with trace := s.trace ++ [Event.read tail Field.qnext,
                                       Event.pr_err ErrMsg.put_illegal] })
    else
      match flush_iob_list P s.mem fuel iob with
      | none => none
      | some flush_ev =>
        some (0,
          { handle := { s.handle with shared_queue_tail := iob }
            mem := setQnext s.mem tail (P.A2B iob)
            trace := s.trace ++ [Event.read tail Field.qnext, Event.ref_cluster iob]
              ++ flush_ev
              ++ [Event.dsb, Event.write_qnext tail (P.A2B iob),
                  Event.flush tail P.sizeof_iobuf, Event.dsb, Event.set_tail iob] })

/-- The function `nvshm_init_queue`. -/
def nvshm_init_queue (P : Platform) (s : State) : Int × State :=
  if s.handle.ipc_base_virt = 0 ∨ s.handle.desc_base_virt = 0 then
    (-ENOMEM, { s with trace := s.trace ++ [Event.pr_debug, Event.pr_err ErrMsg.init_no_base] })
  else if s.handle.desc_size % P.sizeof_iobuf ≠ 0 then
    (-EINVAL, { s with trace := s.trace ++ [Event.pr_debug, Event.pr_err ErrMsg.init_bad_size] })
  else
    (0, { s with trace := s.trace ++ [Event.pr_debug] })

/-- The body of the `while (iob)` loop of `nvshm_process_queue`, from the test of
`iob` on; the lock is held on entry.  Each call of `nvshm_queue_get` is bracketed
in the trace by `get_call` and `get_ret` with the pointer it returned. -/
def process_loop (P : Platform) (getFuel : Nat) : Nat → State → Nat → Option State
  | 0, s, iob =>
    if iob = 0 then some { s with trace := s.trace ++ [Event.unlock] } else none
  | fuel + 1, s, iob =>
    if iob = 0 then some { s with trace := s.trace ++ [Event.unlock] }
    else
      let chan := (s.mem iob).chan
      let dispatch_ev :=
        if (s.mem iob).pool_id < P.AP_POOL_ID then
          if s.handle.chan_ops chan then
            [Event.unlock, Event.rx_event chan iob, Event.lock]
          else [Event.free_cluster chan iob]
        else []
      let s1 : State :=
        { s with trace := s.trace ++ [Event.read iob Field.chan, Event.read iob Field.pool_id]
                   ++ dispatch_ev ++ [Event.get_call] }
      match nvshm_queue_get P getFuel s1 with
      | none => none
      | some (nxt, s2) =>
        process_loop P getFuel fuel { s2 with trace := s2.trace ++ [Event.get_ret nxt] } nxt

/-- The function `nvshm_process_queue`. -/
def nvshm_process_queue (P : Platform) (getFuel fuel : Nat) (s : State) : Option State :=
  match nvshm_queue_get P getFuel
      { s with trace := s.trace ++ [Event.lock, Event.get_call] } with
  | none => none
  | some (iob, s1) =>
    process_loop P getFuel fuel { s1 with trace := s1.trace ++ [Event.get_ret iob] } iob

/-! ## Chains and regions -/

/-- The fragment the inner loop visits after `leaf`. -/
def sgSucc (P : Platform) (mem : Mem) (leaf : Nat) : Nat :=
  if (mem leaf).sg_next ≠ 0 then P.B2A (mem leaf).sg_next else 0

/-- The item the outer loop visits after `phy_list`. -/
def itemSucc (P : Platform) (mem : Mem) (phy_list : Nat) : Nat :=
  if (mem phy_list).next ≠ 0 then P.B2A (mem phy_list).next else 0

/-- The fragments reached from `leaf` along `sg_next` are exactly the listed
nodes, and the chain ends after the last of them. -/
def sgChain (P : Platform) (mem : Mem) : Nat → List Nat → Bool
  | leaf, [] => decide (leaf = 0)
  | leaf, n :: rest =>
    decide (leaf ≠ 0) && decide (n = leaf) && sgChain P mem (sgSucc P mem leaf) rest

/-- The items reached from `phy_list` along `next` are the heads of the listed
fragment chains, each item with exactly the listed fragments. -/
def itemChain (P : Platform) (mem : Mem) : Nat → List (List Nat) → Bool
  | phy_list, [] => decide (phy_list = 0)
  | phy_list, frags :: rest =>
    decide (phy_list ≠ 0) && sgChain P mem phy_list frags
      && itemChain P mem (itemSucc P mem phy_list) rest

/-- Fuel that is enough to walk a chain. -/
def chainFuel (L : List (List Nat)) : Nat := L.length + L.flatten.length

/-- The regions handed to `FLUSH_CPU_DCACHE`, in order. -/
def flushRegions : List Event → List (Nat × Nat)
  | [] => []
  | Event.flush va size :: rest => (va, size) :: flushRegions rest
  | _ :: rest => flushRegions rest

/-- The regions handed to `INV_CPU_DCACHE`, in order. -/
def invRegions : List Event → List (Nat × Nat)
  | [] => []
  | Event.inv va size :: rest => (va, size) :: invRegions rest
  | _ :: rest => invRegions rest

/-- The regions of one node as the code computes them: its record, and its
payload when the length is not zero. -/
def nodeRegions (P : Platform) (mem : Mem) (n : Nat) : List (Nat × Nat) :=
  (n, P.sizeof_iobuf) ::
    (if (mem n).length ≠ 0 then
      [(P.B2A (((mem n).npduData + (mem n).dataOffset) % W), (mem n).length)]
     else [])

/-- The regions of one node as the spec words them: the payload starts at the
translated data pointer plus the data offset (32-bit pointer arithmetic). -/
def specNodeRegions (P : Platform) (mem : Mem) (n : Nat) : List (Nat × Nat) :=
  (n, P.sizeof_iobuf) ::
    (if 0 < (mem n).length then
      [((P.B2A (mem n).npduData + (mem n).dataOffset) % W, (mem n).length)]
     else [])

/-- Whether an event is an access to a descriptor field. -/
def Event.isRead : Event → Bool
  | Event.read _ _ => true
  | _ => false


/-- Whether an event is a call of `nvshm_iobuf_ref_cluster`. -/
def Event.isRef : Event → Bool
  | Event.ref_cluster _ => true
  | _ => false

/-- Whether an event is a call of `nvshm_iobuf_free_cluster`. -/
def Event.isFree : Event → Bool
  | Event.free_cluster _ _ => true
  | _ => false

/-- Whether an event is a store to a descriptor. -/
def Event.isWrite : Event → Bool
  | Event.write_qnext _ _ => true
  | _ => false

/-- Whether an event only reads a descriptor field or logs a line: it takes no
reference, frees nothing, stores nothing, moves no queue pointer and issues no
cache operation or barrier. -/
def Event.isQuiet : Event → Bool
  | Event.read _ _ => true
  | Event.pr_err _ => true
  | _ => false

/-- The three checks `nvshm_queue_put` makes before it touches anything: the
tail pointer is set, the item is not null, the tail's queue link is null. -/
def putOk (s : State) (iob : Nat) : Bool :=
  decide (s.handle.shared_queue_tail ≠ 0) && decide (iob ≠ 0)
    && decide ((s.mem s.handle.shared_queue_tail).qnext = 0)

/-- A descriptor with every field zero. -/
def blank : nvshm_iobuf :=
  { npduData := 0, length := 0, dataOffset := 0, pool_id := 0, next := 0,
    sg_next := 0, qnext := 0, chan := 0 }

/-- A sample instance: local base 4096, peer base 1024, 48-byte descriptors. -/
def demoPlatform : Platform := offsetPlatform 4096 1024 48 2

/-- A sample handle with the given head and tail pointers. -/
def demoHandle (head tail : Nat) : nvshm_handle :=
  { instance_id := 0, ipc_base_virt := 4096, desc_base_virt := 8192, desc_size := 4800,
    shared_queue_head := head, shared_queue_tail := tail,
    conf := { queue_bb_offset := 0, shmem_size := 65536 },
    chan_ops := fun _ => false }

/-- A sample state: an initialized empty queue whose guard is at 4144, in a
region where every descriptor is blank. -/
def demoEmpty : State :=
  { handle := demoHandle 4144 4144, mem := fun _ => blank, trace := [] }

/-- A sample region: the item at 4192 has a 100-byte payload and one fragment at
4240 without payload, and is followed by the item at 4288 with a 7-byte payload. -/
def demoMem : Mem := fun a =>
  if a = 4192 then
    { blank with npduData := 2000, dataOffset := 16, length := 100,
                 sg_next := demoPlatform.A2B 4240, next := demoPlatform.A2B 4288 }
  else if a = 4288 then { blank with npduData := 3000, dataOffset := 4, length := 7 }
  else blank

/-- The debug offset `nvshm_queue_get` stores when it dequeues `ret`. -/
def debugOffset (s : State) (ret : Nat) : Int :=
  wrapInt32 (toInt32 ret - toInt32 s.handle.ipc_base_virt)

/-- A number of consecutive calls of `nvshm_queue_get`, with the pointers they
return. -/
def getN (P : Platform) (fuel : Nat) : Nat → State → Option (List Nat × State)
  | 0, s => some ([], s)
  | n + 1, s =>
    match nvshm_queue_get P fuel s with
    | none => none
    | some (r, s1) =>
      match getN P fuel n s1 with
      | none => none
      | some (rs, s2) => some (r :: rs, s2)

/-- Consecutive calls of `nvshm_queue_put`, one for each listed item, with the
statuses they return. -/
def putAll (P : Platform) (fuel : Nat) : List Nat → State → Option (List Int × State)
  | [], s => some ([], s)
  | a :: rest, s =>
    match nvshm_queue_put P fuel s a with
    | none => none
    | some (r, s1) =>
      match putAll P fuel rest s1 with
      | none => none
      | some (rs, s2) => some (r :: rs, s2)

/-- The events a dequeuing `nvshm_queue_get` adds to the trace, given the events
of its call of `inv_iob_list`. -/
def getEvents (P : Platform) (s : State) (inv_ev : List Event) : List Event :=
  [Event.inv s.handle.shared_queue_head P.sizeof_iobuf,
   Event.read s.handle.shared_queue_head Field.qnext,
   Event.read s.handle.shared_queue_head Field.qnext]
  ++ inv_ev
  ++ [Event.write_qnext s.handle.shared_queue_head 0,
      Event.set_head (P.B2A (s.mem s.handle.shared_queue_head).qnext),
      Event.set_offset (debugOffset s (P.B2A (s.mem s.handle.shared_queue_head).qnext))]
  ++ (if debugOffset s (P.B2A (s.mem s.handle.shared_queue_head).qnext) < 0
        ∨ debugOffset s (P.B2A (s.mem s.handle.shared_queue_head).qnext)
            > s.handle.conf.shmem_size
      then [Event.pr_err ErrMsg.out_of_bound] else [])
  ++ [Event.read s.handle.shared_queue_head Field.chan,
      Event.free_cluster (s.mem s.handle.shared_queue_head).chan s.handle.shared_queue_head]

/-- A sample state: the guard at 4144 carries a queue link, 4294964224, that the
sample translation maps to the null local pointer. -/
def demoLinkToNull : State :=
  { handle := demoHandle 4144 4144
    mem := fun a => if a = 4144 then { blank with qnext := 4294964224 } else blank
    trace := [] }

/-- A sample state: an initialized empty queue with guard 4144, and a buffer at
4192 whose own queue link is still set (to 99). -/
def demoStale : State :=
  { handle := demoHandle 4144 4144
    mem := fun a => if a = 4192 then { blank with qnext := 99 } else blank
    trace := [] }

/-- A sample state: the queue with guard 4144 and one pending blank buffer, 4192. -/
def demoOne : State :=
  { handle := demoHandle 4144 4192
    mem := fun a => if a = 4144 then { blank with qnext := demoPlatform.A2B 4192 } else blank
    trace := [] }

/-- The pending items of a queue: `qchain P mem tail head pend` says that the nodes
reached from `head` along the queue links, each link translated by `NVSHM_B2A`,
are the listed ones, that the last node reached is `tail`, and that its queue
link is null. -/
def qchain (P : Platform) (mem : Mem) (tail : Nat) : Nat → List Nat → Bool
  | h, [] => decide (h = tail) && decide ((mem h).qnext = 0)
  | h, x :: xs =>
    decide ((mem h).qnext ≠ 0) && decide (P.B2A (mem h).qnext = x) && qchain P mem tail x xs

/-- A well-formed queue with the given pending items: the queue links lead from
the head through the pending items to the tail, and the guard and the pending
items are pairwise distinct and not null. -/
def wfQueue (P : Platform) (s : State) (pend : List Nat) : Prop :=
  qchain P s.mem s.handle.shared_queue_tail s.handle.shared_queue_head pend = true
  ∧ (s.handle.shared_queue_head :: pend).Nodup
  ∧ ∀ n ∈ s.handle.shared_queue_head :: pend, n ≠ 0

/-- A sample instance whose peer addresses are plain offsets from the local base
4096 (peer base 0). -/
def demoOffsets : Platform := offsetPlatform 4096 0 48 2

/-- A sample state: the guard at 4144 is linked to a node at 69632, which is the
local base 4096 plus the size 65536 of the shared region. -/
def demoAtSize : State :=
  { handle := demoHandle 4144 4144
    mem := fun a => if a = 4144 then { blank with qnext := demoPlatform.A2B 69632 } else blank
    trace := [] }

/-- Whether an event is a call of the invalidate primitive. -/
def Event.isInv : Event → Bool
  | Event.inv _ _ => true
  | _ => false

/-- The check that every read of a field of a node comes after an invalidate of
that node's record (`size` bytes at the node's address): `seen` holds the
regions invalidated so far. -/
def invBeforeRead (size : Nat) : List (Nat × Nat) → List Event → Bool
  | _, [] => true
  | seen, Event.inv va sz :: rest => invBeforeRead size ((va, sz) :: seen) rest
  | seen, Event.read n _ :: rest =>
    decide ((n, size) ∈ seen) && invBeforeRead size seen rest
  | seen, _ :: rest => invBeforeRead size seen rest

/-- The events `nvshm_queue_get` itself can add to the trace. -/
def Event.isGetEvent : Event → Bool
  | Event.inv _ _ => true
  | Event.read _ _ => true
  | Event.write_qnext _ _ => true
  | Event.set_head _ => true
  | Event.set_offset _ => true
  | Event.free_cluster _ _ => true
  | Event.pr_err _ => true
  | _ => false

/-- The events by which the drain is observed: the lock, the callbacks, the
frees, and the calls of `nvshm_queue_get` with what they return. -/
def Event.isDrain : Event → Bool
  | Event.lock => true
  | Event.unlock => true
  | Event.rx_event _ _ => true
  | Event.free_cluster _ _ => true
  | Event.get_call => true
  | Event.get_ret _ => true
  | _ => false

/-- Whether an event is a call of `nvshm_queue_get` made by the drain. -/
def Event.isGetCall : Event → Bool
  | Event.get_call => true
  | _ => false

/-- Whether an event is a return of `nvshm_queue_get` to the drain. -/
def Event.isGetRet : Event → Bool
  | Event.get_ret _ => true
  | _ => false

/-- The dispatch step for a dequeued item, in the words of the spec: an item of a
pool below the threshold goes to the receive callback of its channel, with the
lock released around the call, when the channel has an ops table, and is freed
to its channel's pool when it has none; an item of another pool is skipped. -/
def dispatchOf (P : Platform) (ops : Int → Bool) (mem : Mem) (x : Nat) : List Event :=
  if (mem x).pool_id < P.AP_POOL_ID then
    if ops (mem x).chan = true then
      [Event.unlock, Event.rx_event (mem x).chan x, Event.lock]
    else [Event.free_cluster (mem x).chan x]
  else []

/-- What the drain does with the pointer a get returned: it leaves the loop and
releases the lock on null, and dispatches the item otherwise. -/
def afterGet (P : Platform) (ops : Int → Bool) (mem : Mem) (x : Nat) : List Event :=
  if x = 0 then [Event.unlock] else dispatchOf P ops mem x

/-- The observed events of a sequence of drain rounds; a round is a call of
`nvshm_queue_get`, the frees `F` that call makes, the pointer `x` it returns, and
what the drain does with `x`. -/
def drainSegments (P : Platform) (ops : Int → Bool) (mem : Mem) :
    List (List Event × Nat) → List Event
  | [] => []
  | (F, x) :: rest =>
    [Event.get_call] ++ F ++ [Event.get_ret x] ++ afterGet P ops mem x
      ++ drainSegments P ops mem rest

/-- Well-formed rounds after a get returned `x`: there is a further round exactly
when `x` is not null, and the frees a get makes are at most one call of
`nvshm_iobuf_free_cluster`. -/
def segsOk : Nat → List (List Event × Nat) → Bool
  | x, [] => decide (x = 0)
  | x, (F, y) :: rest =>
    decide (x ≠ 0) && F.all Event.isFree && decide (F.length ≤ 1) && segsOk y rest

/-- The lock as a flag run over a trace: `none` when the lock is acquired while
held or released while free, when `nvshm_queue_get` is called with the lock free,
or when a receive callback is invoked with the lock held; otherwise the flag at
the end. -/
def lockRun : Bool → List Event → Option Bool
  | held, [] => some held
  | held, Event.lock :: rest => if held then none else lockRun true rest
  | held, Event.unlock :: rest => if held then lockRun false rest else none
  | held, Event.get_call :: rest => if held then lockRun held rest else none
  | held, Event.rx_event _ _ :: rest => if held then none else lockRun held rest
  | held, _ :: rest => lockRun held rest

/-- A sample state: the queue with guard 4144 and two pending blank buffers, 4192
and 4240, of pool 0 and channel 0; no channel has an ops table. -/
def demoTwo : State :=
  { handle := demoHandle 4144 4240
    mem := fun a =>
      if a = 4144 then { blank with qnext := demoPlatform.A2B 4192 }
      else if a = 4192 then { blank with qnext := demoPlatform.A2B 4240 }
      else blank
    trace := [] }

/-- A sample state: as `demoTwo`, with an ops table registered for every channel. -/
def demoTwoOps : State :=
  { demoTwo with handle := { demoHandle 4144 4240 with chan_ops := fun _ => true } }

/-- A queue operation: a put of a buffer, or a get. -/
inductive QueueOp
  | put (iob : Nat)
  | get
  deriving DecidableEq, Repr

/-- What a queue operation returns: the status of a put, or the pointer a get
returns. -/
inductive OpResult
  | status (r : Int)
  | item (p : Nat)
  deriving DecidableEq, Repr

/-- A sequence of calls of `nvshm_queue_put` and `nvshm_queue_get`, with what each
call returns. -/
def runOps (P : Platform) (fuel : Nat) : List QueueOp → State → Option (List OpResult × State)
  | [], s => some ([], s)
  | QueueOp.put x :: rest, s =>
    match nvshm_queue_put P fuel s x with
    | none => none
    | some (r, s1) =>
      match runOps P fuel rest s1 with
      | none => none
      | some (rs, s2) => some (OpResult.status r :: rs, s2)
  | QueueOp.get :: rest, s =>
    match nvshm_queue_get P fuel s with
    | none => none
    | some (r, s1) =>
      match runOps P fuel rest s1 with
      | none => none
      | some (rs, s2) => some (OpResult.item r :: rs, s2)

/-- The abstract FIFO queue: a list, a put appends and succeeds, a get removes
and returns the first element, or returns null on the empty list.  The result
is what the operations return and the list at the end. -/
def fifoRun : List QueueOp → List Nat → List OpResult × List Nat
  | [], q => ([], q)
  | QueueOp.put x :: rest, q =>
    (OpResult.status 0 :: (fifoRun rest (q ++ [x])).1, (fifoRun rest (q ++ [x])).2)
  | QueueOp.get :: rest, [] =>
    (OpResult.item 0 :: (fifoRun rest []).1, (fifoRun rest []).2)
  | QueueOp.get :: rest, y :: ys =>
    (OpResult.item y :: (fifoRun rest ys).1, (fifoRun rest ys).2)

/-- The buffers a sequence of operations puts, in order. -/
def putsOf : List QueueOp → List Nat
  | [] => []
  | QueueOp.put x :: rest => x :: putsOf rest
  | QueueOp.get :: rest => putsOf rest

/-- The non-null pointers returned by the gets of a sequence of results. -/
def gotItems : List OpResult → List Nat
  | [] => []
  | OpResult.item p :: rest => if p = 0 then gotItems rest else p :: gotItems rest
  | OpResult.status _ :: rest => gotItems rest

/-- The statuses returned by the puts of a sequence of results. -/
def putStatuses : List OpResult → List Int
  | [] => []
  | OpResult.status r :: rest => r :: putStatuses rest
  | OpResult.item _ :: rest => putStatuses rest

/-- The nodes handed to `nvshm_iobuf_free_cluster`, in order. -/
def freedNodes : List Event → List Nat
  | [] => []
  | Event.free_cluster _ iob :: rest => iob :: freedNodes rest
  | _ :: rest => freedNodes rest

/-- A queue whose head chain is intact while its tail may have come off it: the
queue links lead from the head through the pending items to a node with a null
link, the tail is that node or is off the chain, the tail's own link is null,
and the guard and the pending items are pairwise distinct and not null. -/
def looseQueue (P : Platform) (s : State) (pend : List Nat) : Prop :=
  (∃ e, qchain P s.mem e s.handle.shared_queue_head pend = true
      ∧ (s.handle.shared_queue_tail = e
          ∨ s.handle.shared_queue_tail ∉ s.handle.shared_queue_head :: pend))
  ∧ (s.mem s.handle.shared_queue_tail).qnext = 0
  ∧ s.handle.shared_queue_tail ≠ 0
  ∧ (s.handle.shared_queue_head :: pend).Nodup
  ∧ ∀ n ∈ s.handle.shared_queue_head :: pend, n ≠ 0

/-! ## Lemmas on the traversals -/

theorem flushRegions_append (a b : List Event) :
    flushRegions (a ++ b) = flushRegions a ++ flushRegions b := by
  induction a with
  | nil => rfl
  | cons e t ih => cases e <;> simp [flushRegions, ih]

theorem invRegions_append (a b : List Event) :
    invRegions (a ++ b) = invRegions a ++ invRegions b := by
  induction a with
  | nil => rfl
  | cons e t ih => cases e <;> simp [invRegions, ih]

theorem flush_leaf_chain (P : Platform) (mem : Mem) (frags : List Nat) :
    ∀ (leaf fuel : Nat), sgChain P mem leaf frags = true → frags.length ≤ fuel →
      ∃ ev, flush_leaf P mem fuel leaf = some ev
        ∧ flushRegions ev = frags.flatMap (nodeRegions P mem) := by
  induction frags with
  | nil =>
    intro leaf fuel hc hf
    simp [sgChain] at hc
    subst hc
    cases fuel with
    | zero => exact ⟨[], by simp [flush_leaf], rfl⟩
    | succ f => exact ⟨[], by simp [flush_leaf], rfl⟩
  | cons n rest ih =>
    intro leaf fuel hc hf
    simp [sgChain] at hc
    obtain ⟨⟨hne, hn⟩, hrest⟩ := hc
    subst hn
    cases fuel with
    | zero => simp at hf
    | succ f =>
      obtain ⟨ev, hev, hreg⟩ := ih (sgSucc P mem n) f hrest (by simpa using hf)
      simp only [sgSucc] at hev
      refine ⟨_, by simp only [flush_leaf, hne, if_false, hev, Option.map_some']; rfl, ?_⟩
      simp only [flushRegions_append, hreg, List.flatMap_cons, nodeRegions]
      by_cases hl : (mem n).length = 0 <;> by_cases hs : (mem n).sg_next = 0 <;>
        simp [hl, hs, flushRegions]

theorem flush_iob_list_chain (P : Platform) (mem : Mem) (L : List (List Nat)) :
    ∀ (iob fuel : Nat), itemChain P mem iob L = true → chainFuel L ≤ fuel →
      ∃ ev, flush_iob_list P mem fuel iob = some ev
        ∧ flushRegions ev = L.flatten.flatMap (nodeRegions P mem) := by
  induction L with
  | nil =>
    intro iob fuel hc hf
    simp [itemChain] at hc
    subst hc
    cases fuel with
    | zero => exact ⟨[], by simp [flush_iob_list], rfl⟩
    | succ f => exact ⟨[], by simp [flush_iob_list], rfl⟩
  | cons frags rest ih =>
    intro iob fuel hc hf
    simp [itemChain] at hc
    obtain ⟨⟨hne, hsg⟩, hrest⟩ := hc
    simp only [chainFuel, List.length_cons, List.flatten_cons, List.length_append] at hf
    cases fuel with
    | zero => omega
    | succ f =>
      obtain ⟨lv, hlv, hlreg⟩ := flush_leaf_chain P mem frags iob f hsg (by omega)
      obtain ⟨ev, hev, hreg⟩ := ih (itemSucc P mem iob) f hrest (by simp only [chainFuel]; omega)
      simp only [itemSucc] at hev
      refine ⟨_, by simp only [flush_iob_list, hne, if_false, hlv, hev, Option.map_some']; rfl, ?_⟩
      simp only [flushRegions_append, hreg, hlreg, List.flatten_cons, List.flatMap_append]
      by_cases hs : (mem iob).next = 0 <;> simp [hs, flushRegions]

theorem leaf_regions_agree (P : Platform) (mem : Mem) :
    ∀ (fuel leaf : Nat),
      (inv_leaf P mem fuel leaf).map invRegions
        = (flush_leaf P mem fuel leaf).map flushRegions := by
  intro fuel
  induction fuel with
  | zero =>
    intro leaf
    by_cases h0 : leaf = 0 <;> simp [inv_leaf, flush_leaf, h0, invRegions, flushRegions]
  | succ f ih =>
    intro leaf
    by_cases h0 : leaf = 0
    · simp [inv_leaf, flush_leaf, h0, invRegions, flushRegions]
    · have h := ih (if (mem leaf).sg_next ≠ 0 then P.B2A (mem leaf).sg_next else 0)
      simp only [inv_leaf, flush_leaf, h0, if_false]
      cases hi : inv_leaf P mem f (if (mem leaf).sg_next ≠ 0 then P.B2A (mem leaf).sg_next else 0) <;>
        cases hfl : flush_leaf P mem f (if (mem leaf).sg_next ≠ 0 then P.B2A (mem leaf).sg_next else 0) <;>
        simp only [hi, hfl, Option.map_some', Option.map_none', Option.some.injEq] at h ⊢
      · exact absurd h (by simp)
      · exact absurd h (by simp)
      · simp only [invRegions_append, flushRegions_append, h]
        by_cases hl : (mem leaf).length = 0 <;> by_cases hs : (mem leaf).sg_next = 0 <;>
          simp [hl, hs, flushRegions, invRegions]

theorem list_regions_agree (P : Platform) (mem : Mem) :
    ∀ (fuel iob : Nat),
      (inv_iob_list P mem fuel iob).map invRegions
        = (flush_iob_list P mem fuel iob).map flushRegions := by
  intro fuel
  induction fuel with
  | zero =>
    intro iob
    by_cases h0 : iob = 0 <;> simp [inv_iob_list, flush_iob_list, h0, invRegions, flushRegions]
  | succ f ih =>
    intro iob
    by_cases h0 : iob = 0
    · simp [inv_iob_list, flush_iob_list, h0, invRegions, flushRegions]
    · have h := ih (if (mem iob).next ≠ 0 then P.B2A (mem iob).next else 0)
      have hl := leaf_regions_agree P mem f iob
      simp only [inv_iob_list, flush_iob_list, h0, if_false]
      cases hil : inv_leaf P mem f iob <;> cases hfl : flush_leaf P mem f iob <;>
        simp only [hil, hfl, Option.map_some', Option.map_none', Option.some.injEq] at hl ⊢
      · exact absurd hl (by simp)
      · exact absurd hl (by simp)
      · cases hi : inv_iob_list P mem f (if (mem iob).next ≠ 0 then P.B2A (mem iob).next else 0) <;>
          cases hf : flush_iob_list P mem f (if (mem iob).next ≠ 0 then P.B2A (mem iob).next else 0) <;>
          simp only [hi, hf, Option.map_some', Option.map_none', Option.some.injEq] at h ⊢
        · exact absurd h (by simp)
        · exact absurd h (by simp)
        · simp only [invRegions_append, flushRegions_append, h, hl]
          by_cases hs : (mem iob).next = 0 <;> simp [hs, flushRegions, invRegions]

theorem inv_iob_list_chain (P : Platform) (mem : Mem) (L : List (List Nat))
    (iob fuel : Nat) (hc : itemChain P mem iob L = true) (hf : chainFuel L ≤ fuel) :
    ∃ ev, inv_iob_list P mem fuel iob = some ev
      ∧ invRegions ev = L.flatten.flatMap (nodeRegions P mem) := by
  obtain ⟨fv, hfv, hreg⟩ := flush_iob_list_chain P mem L iob fuel hc hf
  have h := list_regions_agree P mem fuel iob
  rw [hfv] at h
  cases hi : inv_iob_list P mem fuel iob with
  | none => rw [hi] at h; simp at h
  | some ev =>
    rw [hi] at h
    simp only [Option.map_some', Option.some.injEq] at h
    exact ⟨ev, rfl, by rw [h, hreg]⟩

theorem flush_leaf_nonread (P : Platform) (mem : Mem) :
    ∀ (fuel leaf : Nat) (ev : List Event), flush_leaf P mem fuel leaf = some ev →
      ev.filter (fun e => !e.isRead) = (flushRegions ev).map (fun r => Event.flush r.1 r.2) := by
  intro fuel
  induction fuel with
  | zero =>
    intro leaf ev h
    by_cases h0 : leaf = 0
    · simp [flush_leaf, h0] at h; subst h; rfl
    · simp [flush_leaf, h0] at h
  | succ f ih =>
    intro leaf ev h
    by_cases h0 : leaf = 0
    · simp [flush_leaf, h0] at h; subst h; rfl
    · simp only [flush_leaf, h0, if_false, Option.map_eq_some'] at h
      obtain ⟨r, hr, hev⟩ := h
      have := ih _ r hr
      subst hev
      simp only [List.filter_append, flushRegions_append, List.map_append, this]
      by_cases hl : (mem leaf).length = 0 <;> by_cases hs : (mem leaf).sg_next = 0 <;>
        simp [hl, hs, flushRegions, Event.isRead]

theorem flush_iob_list_nonread (P : Platform) (mem : Mem) :
    ∀ (fuel iob : Nat) (ev : List Event), flush_iob_list P mem fuel iob = some ev →
      ev.filter (fun e => !e.isRead) = (flushRegions ev).map (fun r => Event.flush r.1 r.2) := by
  intro fuel
  induction fuel with
  | zero =>
    intro iob ev h
    by_cases h0 : iob = 0
    · simp [flush_iob_list, h0] at h; subst h; rfl
    · simp [flush_iob_list, h0] at h
  | succ f ih =>
    intro iob ev h
    by_cases h0 : iob = 0
    · simp [flush_iob_list, h0] at h; subst h; rfl
    · simp only [flush_iob_list, h0, if_false] at h
      cases hlv : flush_leaf P mem f iob with
      | none => simp [hlv] at h
      | some lv =>
        simp only [hlv, Option.map_eq_some'] at h
        obtain ⟨r, hr, hev⟩ := h
        have h1 := ih _ r hr
        have h2 := flush_leaf_nonread P mem f iob lv hlv
        subst hev
        simp only [List.filter_append, flushRegions_append, List.map_append, h1, h2]
        by_cases hs : (mem iob).next = 0 <;> simp [hs, flushRegions, Event.isRead]

/-! ## nvshm_queue_put -/

theorem put_of_not_ok (P : Platform) (fuel : Nat) (s : State) (iob : Nat)
    (h : putOk s iob = false) :
    ∃ ev, nvshm_queue_put P fuel s iob = some (-EINVAL, { s with trace := s.trace ++ ev })
      ∧ ev.all Event.isQuiet = true := by
  unfold nvshm_queue_put
  by_cases ht : s.handle.shared_queue_tail = 0
  · exact ⟨[Event.pr_err ErrMsg.put_not_init], by simp [ht], rfl⟩
  · by_cases hi : iob = 0
    · exact ⟨[Event.pr_err ErrMsg.put_null], by simp [ht, hi], rfl⟩
    · have hq : (s.mem s.handle.shared_queue_tail).qnext ≠ 0 := by
        intro hq
        simp [putOk, ht, hi, hq] at h
      exact ⟨[Event.read s.handle.shared_queue_tail Field.qnext, Event.pr_err ErrMsg.put_illegal],
        by simp [ht, hi, hq], rfl⟩

theorem put_of_ok (P : Platform) (fuel : Nat) (s : State) (iob : Nat)
    (h : putOk s iob = true) :
    nvshm_queue_put P fuel s iob =
      (flush_iob_list P s.mem fuel iob).map (fun flush_ev =>
        ((0 : Int),
          ({ handle := { s.handle with shared_queue_tail := iob }
             mem := setQnext s.mem s.handle.shared_queue_tail (P.A2B iob)
             trace := s.trace
               ++ [Event.read s.handle.shared_queue_tail Field.qnext, Event.ref_cluster iob]
               ++ flush_ev
               ++ [Event.dsb, Event.write_qnext s.handle.shared_queue_tail (P.A2B iob),
                   Event.flush s.handle.shared_queue_tail P.sizeof_iobuf, Event.dsb,
                   Event.set_tail iob] } : State))) := by
  simp only [putOk, Bool.and_eq_true, decide_eq_true_eq] at h
  obtain ⟨⟨ht, hi⟩, hq⟩ := h
  unfold nvshm_queue_put
  simp only [ht, hi, hq, if_false, ne_eq, not_true_eq_false]
  cases flush_iob_list P s.mem fuel iob <;> rfl

/-- C2: `nvshm_queue_put` returns 0 exactly when its three checks pass (tail
pointer set, item not null, tail's queue link null) and `-EINVAL` in every other
case.  Whenever the call returns, the status is 0 if and only if the checks pass,
and it is 0 or `-EINVAL`; when a check fails the call returns `-EINVAL` whatever
the fuel; when the checks pass and the item's chain is finite, the call returns
0 as soon as the fuel covers the chain. -/
theorem nvshm_queue_put_status (P : Platform) (s : State) (iob : Nat) :
    (∀ fuel r s', nvshm_queue_put P fuel s iob = some (r, s') →
        (r = 0 ↔ (s.handle.shared_queue_tail ≠ 0 ∧ iob ≠ 0
                    ∧ (s.mem s.handle.shared_queue_tail).qnext = 0))
        ∧ (r = 0 ∨ r = -EINVAL))
    ∧ (putOk s iob = false → ∀ fuel, ∃ s', nvshm_queue_put P fuel s iob = some (-EINVAL, s'))
    ∧ (putOk s iob = true → ∀ L fuel, itemChain P s.mem iob L = true → chainFuel L ≤ fuel →
        ∃ s', nvshm_queue_put P fuel s iob = some (0, s')) := by
  refine ⟨?_, ?_, ?_⟩
  · intro fuel r s' h
    cases hok : putOk s iob with
    | false =>
      obtain ⟨ev, hev, _⟩ := put_of_not_ok P fuel s iob hok
      rw [hev] at h
      simp only [Option.some.injEq, Prod.mk.injEq] at h
      have hr : r = -EINVAL := h.1.symm
      have hc : ¬ (s.handle.shared_queue_tail ≠ 0 ∧ iob ≠ 0
                    ∧ (s.mem s.handle.shared_queue_tail).qnext = 0) := by
        intro hc
        simp [putOk, hc.1, hc.2.1, hc.2.2] at hok
      subst hr
      exact ⟨⟨fun h0 => absurd h0 (by decide), fun hc' => absurd hc' hc⟩, Or.inr rfl⟩
    | true =>
      rw [put_of_ok P fuel s iob hok] at h
      simp only [Option.map_eq_some', Prod.mk.injEq] at h
      obtain ⟨fl, _, hr, _⟩ := h
      simp only [putOk, Bool.and_eq_true, decide_eq_true_eq] at hok
      exact ⟨⟨fun _ => ⟨hok.1.1, hok.1.2, hok.2⟩, fun _ => hr.symm⟩, Or.inl hr.symm⟩
  · intro hok fuel
    obtain ⟨ev, hev, _⟩ := put_of_not_ok P fuel s iob hok
    exact ⟨_, hev⟩
  · intro hok L fuel hc hf
    obtain ⟨fl, hfl, _⟩ := flush_iob_list_chain P s.mem L iob fuel hc hf
    rw [put_of_ok P fuel s iob hok, hfl]
    exact ⟨_, rfl⟩

/-- Witness for C2: on the sample empty queue a put of the blank buffer at 4192
returns 0 and a put of the null pointer returns `-EINVAL`. -/
theorem nvshm_queue_put_status_witness :
    (∃ s', nvshm_queue_put demoPlatform 2 demoEmpty 4192 = some (0, s'))
    ∧ (∃ s', nvshm_queue_put demoPlatform 0 demoEmpty 0 = some (-EINVAL, s')) :=
  ⟨(nvshm_queue_put_status demoPlatform demoEmpty 4192).2.2 (by decide) [[4192]] 2
      (by decide) (by decide),
   (nvshm_queue_put_status demoPlatform demoEmpty 0).2.1 (by decide) 0⟩

/-- C3: a failed `nvshm_queue_put` changes nothing.  When a check fails (queue not
initialized, null item, tail link already set) the call returns `-EINVAL` whatever
the fuel, and whenever the call returns a non-zero status, the handle (head and
tail pointers included) and the whole shared region are as before and the events
added to the trace are field reads and log lines only: no cluster reference, no
flush, no barrier, no store. -/
theorem nvshm_queue_put_failure_atomic (P : Platform) (fuel : Nat) (s : State) (iob : Nat) :
    (putOk s iob = false → ∃ s', nvshm_queue_put P fuel s iob = some (-EINVAL, s'))
    ∧ (∀ r s', nvshm_queue_put P fuel s iob = some (r, s') → r ≠ 0 →
        s'.handle = s.handle ∧ s'.mem = s.mem
        ∧ ∃ ev, s'.trace = s.trace ++ ev ∧ ev.all Event.isQuiet = true
            ∧ (∀ e ∈ ev, e ≠ Event.ref_cluster iob ∧ e ≠ Event.dsb
                ∧ ∀ va size, e ≠ Event.flush va size)) := by
  refine ⟨?_, ?_⟩
  · intro hok
    obtain ⟨ev, hev, _⟩ := put_of_not_ok P fuel s iob hok
    exact ⟨_, hev⟩
  · intro r s' h hr
    cases hok : putOk s iob with
    | true =>
      rw [put_of_ok P fuel s iob hok] at h
      simp only [Option.map_eq_some', Prod.mk.injEq] at h
      obtain ⟨fl, _, h0, _⟩ := h
      exact absurd h0.symm hr
    | false =>
      obtain ⟨ev, hev, hq⟩ := put_of_not_ok P fuel s iob hok
      rw [hev] at h
      simp only [Option.some.injEq, Prod.mk.injEq] at h
      obtain ⟨_, hs⟩ := h
      subst hs
      refine ⟨rfl, rfl, ev, rfl, hq, ?_⟩
      intro e he
      have hqe : e.isQuiet = true := (List.all_eq_true.mp hq) e he
      refine ⟨?_, ?_, ?_⟩
      · intro h1; subst h1; simp [Event.isQuiet] at hqe
      · intro h1; subst h1; simp [Event.isQuiet] at hqe
      · intro va size h1; subst h1; simp [Event.isQuiet] at hqe

/-- Witness for C3: a put of the null pointer on the sample empty queue fails and
leaves the handle and the shared region as they were. -/
theorem nvshm_queue_put_failure_atomic_witness :
    ∃ s', nvshm_queue_put demoPlatform 0 demoEmpty 0 = some (-EINVAL, s')
      ∧ s'.handle = demoEmpty.handle ∧ s'.mem = demoEmpty.mem := by
  obtain ⟨s', hs'⟩ := (nvshm_queue_put_failure_atomic demoPlatform 0 demoEmpty 0).1 (by decide)
  have h := (nvshm_queue_put_failure_atomic demoPlatform 0 demoEmpty 0).2 (-EINVAL) s' hs'
    (by decide)
  exact ⟨s', hs', h.1, h.2.1⟩

/-- C4: the postcondition of a successful `nvshm_queue_put`.  Whenever the call
returns 0: the old tail's queue link holds `NVSHM_A2B` of the item, the tail
pointer is the item, the head pointer is unchanged, the calls of
`nvshm_iobuf_ref_cluster` made are exactly one, on the item, the only store made
is the one to the old tail's queue link, every other descriptor is unchanged and
so is every other field of the old tail.  And the call does return 0 when the
checks pass and the fuel covers the item's finite chain. -/
theorem nvshm_queue_put_success_post (P : Platform) (fuel : Nat) (s : State) (iob : Nat) :
    (∀ s', nvshm_queue_put P fuel s iob = some (0, s') →
        (s'.mem s.handle.shared_queue_tail).qnext = P.A2B iob
        ∧ s'.handle.shared_queue_tail = iob
        ∧ s'.handle.shared_queue_head = s.handle.shared_queue_head
        ∧ (∀ a, a ≠ s.handle.shared_queue_tail → s'.mem a = s.mem a)
        ∧ ({ s'.mem s.handle.shared_queue_tail with
              qnext := (s.mem s.handle.shared_queue_tail).qnext }
            = s.mem s.handle.shared_queue_tail)
        ∧ ∃ ev, s'.trace = s.trace ++ ev
            ∧ ev.filter Event.isRef = [Event.ref_cluster iob]
            ∧ ev.filter Event.isWrite
                = [Event.write_qnext s.handle.shared_queue_tail (P.A2B iob)])
    ∧ (putOk s iob = true → ∀ L, itemChain P s.mem iob L = true → chainFuel L ≤ fuel →
        ∃ s', nvshm_queue_put P fuel s iob = some (0, s')) := by
  refine ⟨?_, ?_⟩
  · intro s' h
    cases hok : putOk s iob with
    | false =>
      obtain ⟨ev, hev, _⟩ := put_of_not_ok P fuel s iob hok
      rw [hev] at h
      simp only [Option.some.injEq, Prod.mk.injEq] at h
      exact absurd h.1 (by decide)
    | true =>
      rw [put_of_ok P fuel s iob hok] at h
      simp only [Option.map_eq_some', Prod.mk.injEq, true_and] at h
      obtain ⟨fl, hfl, hs⟩ := h
      have hnr := flush_iob_list_nonread P s.mem fuel iob fl hfl
      have hfilt : ∀ (q : Event → Bool), (∀ va size, q (Event.flush va size) = false) →
          (∀ n f, q (Event.read n f) = false) → fl.filter q = [] := by
        intro q hq1 hq2
        rw [List.filter_eq_nil_iff]
        intro e he
        by_cases hre : e.isRead = true
        · cases e <;> simp [Event.isRead] at hre
          simp [hq2]
        · have hmem : e ∈ fl.filter (fun e => !e.isRead) := by
            simp [List.mem_filter, he, hre]
          rw [hnr] at hmem
          simp only [List.mem_map] at hmem
          obtain ⟨r, _, hr⟩ := hmem
          subst hr
          simp [hq1]
      subst hs
      refine ⟨by simp [setQnext], rfl, rfl, ?_, ?_,
        [Event.read s.handle.shared_queue_tail Field.qnext, Event.ref_cluster iob] ++ fl
          ++ [Event.dsb, Event.write_qnext s.handle.shared_queue_tail (P.A2B iob),
              Event.flush s.handle.shared_queue_tail P.sizeof_iobuf, Event.dsb,
              Event.set_tail iob],
        by simp only [List.append_assoc], ?_, ?_⟩
      · intro a ha
        simp [setQnext, ha]
      · simp [setQnext]
      · simp [List.filter_append, hfilt Event.isRef (by intros; rfl) (by intros; rfl),
          Event.isRef, List.filter]
      · simp [List.filter_append, hfilt Event.isWrite (by intros; rfl) (by intros; rfl),
          Event.isWrite, List.filter]
  · intro hok L hc hf
    obtain ⟨fl, hfl, _⟩ := flush_iob_list_chain P s.mem L iob fuel hc hf
    rw [put_of_ok P fuel s iob hok, hfl]
    exact ⟨_, rfl⟩

/-- Witness for C4: the put of the blank buffer at 4192 on the sample empty queue
returns 0, links the guard at 4144 to it and makes it the tail. -/
theorem nvshm_queue_put_success_post_witness :
    ∃ s', nvshm_queue_put demoPlatform 2 demoEmpty 4192 = some (0, s')
      ∧ (s'.mem 4144).qnext = demoPlatform.A2B 4192
      ∧ s'.handle.shared_queue_tail = 4192 := by
  obtain ⟨s', hs'⟩ := (nvshm_queue_put_success_post demoPlatform 2 demoEmpty 4192).2
    (by decide) [[4192]] (by decide) (by decide)
  have h := (nvshm_queue_put_success_post demoPlatform 2 demoEmpty 4192).1 s' hs'
  exact ⟨s', hs', h.1, h.2.1⟩

/-- C8: the publication order of a successful `nvshm_queue_put`.  Leaving aside
the reads of descriptor fields, the events a successful put adds to the trace
are exactly: the cluster reference on the item; the flushes of `flush_iob_list`
on the item, in its order; a barrier; the store of `NVSHM_A2B` of the item into
the old tail's queue link; the flush of the old tail's record; a second barrier;
the advance of the tail pointer.  For a finite chain whose fuel is covered the
call does return 0 and the flushes are those of the chain's nodes. -/
theorem nvshm_queue_put_publication_order (P : Platform) (fuel : Nat) (s : State)
    (iob : Nat) :
    (∀ s', nvshm_queue_put P fuel s iob = some (0, s') →
        ∃ fl, flush_iob_list P s.mem fuel iob = some fl
          ∧ ∃ ev, s'.trace = s.trace ++ ev
            ∧ ev.filter (fun e => !e.isRead)
                = [Event.ref_cluster iob]
                  ++ (flushRegions fl).map (fun r => Event.flush r.1 r.2)
                  ++ [Event.dsb,
                      Event.write_qnext s.handle.shared_queue_tail (P.A2B iob),
                      Event.flush s.handle.shared_queue_tail P.sizeof_iobuf,
                      Event.dsb,
                      Event.set_tail iob])
    ∧ (putOk s iob = true → ∀ L, itemChain P s.mem iob L = true → chainFuel L ≤ fuel →
        ∃ s' ev, nvshm_queue_put P fuel s iob = some (0, s')
          ∧ s'.trace = s.trace ++ ev
          ∧ ev.filter (fun e => !e.isRead)
              = [Event.ref_cluster iob]
                ++ (L.flatten.flatMap (nodeRegions P s.mem)).map
                    (fun r => Event.flush r.1 r.2)
                ++ [Event.dsb,
                    Event.write_qnext s.handle.shared_queue_tail (P.A2B iob),
                    Event.flush s.handle.shared_queue_tail P.sizeof_iobuf,
                    Event.dsb,
                    Event.set_tail iob]) := by
  have key : ∀ fl, flush_iob_list P s.mem fuel iob = some fl →
      ([Event.read s.handle.shared_queue_tail Field.qnext, Event.ref_cluster iob] ++ fl
          ++ [Event.dsb, Event.write_qnext s.handle.shared_queue_tail (P.A2B iob),
              Event.flush s.handle.shared_queue_tail P.sizeof_iobuf, Event.dsb,
              Event.set_tail iob]).filter (fun e => !e.isRead)
        = [Event.ref_cluster iob]
            ++ (flushRegions fl).map (fun r => Event.flush r.1 r.2)
            ++ [Event.dsb,
                Event.write_qnext s.handle.shared_queue_tail (P.A2B iob),
                Event.flush s.handle.shared_queue_tail P.sizeof_iobuf,
                Event.dsb,
                Event.set_tail iob] := by
    intro fl hfl
    have hnr := flush_iob_list_nonread P s.mem fuel iob fl hfl
    simp only [List.filter_append, hnr]
    simp [List.filter, Event.isRead]
  refine ⟨?_, ?_⟩
  · intro s' h
    cases hok : putOk s iob with
    | false =>
      obtain ⟨ev, hev, _⟩ := put_of_not_ok P fuel s iob hok
      rw [hev] at h
      simp only [Option.some.injEq, Prod.mk.injEq] at h
      exact absurd h.1 (by decide)
    | true =>
      rw [put_of_ok P fuel s iob hok] at h
      simp only [Option.map_eq_some', Prod.mk.injEq, true_and] at h
      obtain ⟨fl, hfl, hs⟩ := h
      subst hs
      exact ⟨fl, hfl, [Event.read s.handle.shared_queue_tail Field.qnext, Event.ref_cluster iob]
          ++ fl
          ++ [Event.dsb, Event.write_qnext s.handle.shared_queue_tail (P.A2B iob),
              Event.flush s.handle.shared_queue_tail P.sizeof_iobuf, Event.dsb,
              Event.set_tail iob], by simp only [List.append_assoc], key fl hfl⟩
  · intro hok L hc hf
    obtain ⟨fl, hfl, hreg⟩ := flush_iob_list_chain P s.mem L iob fuel hc hf
    rw [put_of_ok P fuel s iob hok, hfl]
    refine ⟨_, [Event.read s.handle.shared_queue_tail Field.qnext, Event.ref_cluster iob] ++ fl
          ++ [Event.dsb, Event.write_qnext s.handle.shared_queue_tail (P.A2B iob),
              Event.flush s.handle.shared_queue_tail P.sizeof_iobuf, Event.dsb,
              Event.set_tail iob], rfl, by simp only [List.append_assoc], ?_⟩
    rw [← hreg]
    exact key fl hfl

/-- Witness for C8: the events of the put of the blank buffer at 4192 on the
sample empty queue, reads left aside. -/
theorem nvshm_queue_put_publication_order_witness :
    ∃ s' ev, nvshm_queue_put demoPlatform 2 demoEmpty 4192 = some (0, s')
      ∧ s'.trace = demoEmpty.trace ++ ev
      ∧ ev.filter (fun e => !e.isRead)
          = [Event.ref_cluster 4192, Event.flush 4192 48, Event.dsb,
             Event.write_qnext 4144 (demoPlatform.A2B 4192), Event.flush 4144 48,
             Event.dsb, Event.set_tail 4192] :=
  (nvshm_queue_put_publication_order demoPlatform 2 demoEmpty 4192).2
    (by decide) [[4192]] (by decide) (by decide)

/-! ## flush_iob_list and inv_iob_list -/

theorem nodeRegions_eq_spec (P : Platform) (mem : Mem)
    (hoff : ∀ p o, P.B2A ((p + o) % W) = (P.B2A p + o) % W) (n : Nat) :
    nodeRegions P mem n = specNodeRegions P mem n := by
  unfold nodeRegions specNodeRegions
  by_cases hl : (mem n).length = 0
  · simp [hl]
  · simp [hl, Nat.pos_of_ne_zero hl, hoff]

theorem specRegions_length (P : Platform) (mem : Mem) (ns : List Nat) :
    (ns.flatMap (specNodeRegions P mem)).length
      = ns.length + (ns.filter (fun n => decide (0 < (mem n).length))).length := by
  induction ns with
  | nil => rfl
  | cons n t ih =>
    by_cases hl : 0 < (mem n).length
    · simp [specNodeRegions, hl, List.filter, ih]; omega
    · simp [specNodeRegions, hl, List.filter, ih]; omega

theorem offsetPlatform_offset (ipc_base bb_base size pool p o : Nat) :
    (offsetPlatform ipc_base bb_base size pool).B2A ((p + o) % W)
      = ((offsetPlatform ipc_base bb_base size pool).B2A p + o) % W := by
  simp only [offsetPlatform, W]
  omega

/-- C9: `flush_iob_list` flushes exactly the nodes of the chain.  For a finite
chain from `iob` (items along `next`, each with its fragments along `sg_next`)
and a translation that commutes with adding an offset, the call returns once
the fuel covers the chain, and the regions it hands to the flush primitive are,
item by item and fragment by fragment, the record of the node (of
`sizeof(struct nvshm_iobuf)` bytes) followed, when the node's length is positive,
by the payload of `length` bytes at the translated data pointer plus the data
offset; nothing else.  That is one record flush for each of the k nodes and one
payload flush for each node of positive length; a null `iob` gives no event. -/
theorem flush_iob_list_flushes_chain (P : Platform) (mem : Mem) (iob : Nat)
    (L : List (List Nat)) (fuel : Nat)
    (hoff : ∀ p o, P.B2A ((p + o) % W) = (P.B2A p + o) % W)
    (hc : itemChain P mem iob L = true) (hf : chainFuel L ≤ fuel) :
    ∃ ev, flush_iob_list P mem fuel iob = some ev
      ∧ flushRegions ev = L.flatten.flatMap (specNodeRegions P mem)
      ∧ (flushRegions ev).length
          = L.flatten.length
            + (L.flatten.filter (fun n => decide (0 < (mem n).length))).length
      ∧ flush_iob_list P mem fuel 0 = some [] := by
  obtain ⟨ev, hev, hreg⟩ := flush_iob_list_chain P mem L iob fuel hc hf
  have hspec : flushRegions ev = L.flatten.flatMap (specNodeRegions P mem) := by
    rw [hreg]
    congr 1
    funext n
    exact nodeRegions_eq_spec P mem hoff n
  refine ⟨ev, hev, hspec, ?_, ?_⟩
  · rw [hspec, specRegions_length]
  · cases fuel <;> simp [flush_iob_list]

/-- Witness for C9: the regions flushed for the sample chain of three nodes. -/
theorem flush_iob_list_flushes_chain_witness :
    ∃ ev, flush_iob_list demoPlatform demoMem 5 4192 = some ev
      ∧ flushRegions ev
          = [(4192, 48), (demoPlatform.B2A 2000 + 16, 100), (4240, 48), (4288, 48),
             (demoPlatform.B2A 3000 + 4, 7)] := by
  obtain ⟨ev, hev, hreg, _⟩ := flush_iob_list_flushes_chain demoPlatform demoMem 4192
    [[4192, 4240], [4288]] 5 (offsetPlatform_offset 4096 1024 48 2) (by decide) (by decide)
  exact ⟨ev, hev, by rw [hreg]; decide⟩

/-- C10: `inv_iob_list` and `flush_iob_list` are the same traversal.  For any
platform, region, start pointer and fuel, the regions `inv_iob_list` hands to
the invalidate primitive are, in order, the regions `flush_iob_list` hands to
the flush primitive (and one runs out of fuel exactly when the other does); on a
finite chain whose fuel is covered both return and the two sequences are the
regions of the chain's nodes. -/
theorem inv_iob_list_same_regions (P : Platform) (mem : Mem) (iob fuel : Nat) :
    (inv_iob_list P mem fuel iob).map invRegions
        = (flush_iob_list P mem fuel iob).map flushRegions
    ∧ (∀ L, itemChain P mem iob L = true → chainFuel L ≤ fuel →
        ∃ ei ef, inv_iob_list P mem fuel iob = some ei
          ∧ flush_iob_list P mem fuel iob = some ef
          ∧ invRegions ei = flushRegions ef
          ∧ flushRegions ef = L.flatten.flatMap (nodeRegions P mem)) := by
  refine ⟨list_regions_agree P mem fuel iob, ?_⟩
  intro L hc hf
  obtain ⟨ef, hef, hreg⟩ := flush_iob_list_chain P mem L iob fuel hc hf
  obtain ⟨ei, hei, hireg⟩ := inv_iob_list_chain P mem L iob fuel hc hf
  exact ⟨ei, ef, hei, hef, by rw [hireg, hreg], hreg⟩

/-- Witness for C10: on the sample chain both traversals return and visit the
same regions. -/
theorem inv_iob_list_same_regions_witness :
    ∃ ei ef, inv_iob_list demoPlatform demoMem 5 4192 = some ei
      ∧ flush_iob_list demoPlatform demoMem 5 4192 = some ef
      ∧ invRegions ei = flushRegions ef := by
  obtain ⟨ei, ef, h1, h2, h3, _⟩ := (inv_iob_list_same_regions demoPlatform demoMem 4192 5).2
    [[4192, 4240], [4288]] (by decide) (by decide)
  exact ⟨ei, ef, h1, h2, h3⟩

/-! ## nvshm_queue_get -/

theorem get_of_null_head (P : Platform) (fuel : Nat) (s : State)
    (hh : s.handle.shared_queue_head = 0) :
    nvshm_queue_get P fuel s
      = some (0, { s with trace := s.trace ++ [Event.pr_err ErrMsg.get_not_init] }) := by
  simp [nvshm_queue_get, hh]

theorem get_of_null_link (P : Platform) (fuel : Nat) (s : State)
    (hh : s.handle.shared_queue_head ≠ 0)
    (hq : (s.mem s.handle.shared_queue_head).qnext = 0) :
    nvshm_queue_get P fuel s
      = some (0, { s with trace := s.trace
          ++ [Event.inv s.handle.shared_queue_head P.sizeof_iobuf,
              Event.read s.handle.shared_queue_head Field.qnext,
              Event.read s.handle.shared_queue_head Field.qnext] }) := by
  simp [nvshm_queue_get, hh, hq]

theorem inv_leaf_quiet (P : Platform) (mem : Mem) :
    ∀ (fuel leaf : Nat) (ev : List Event), inv_leaf P mem fuel leaf = some ev →
      ev.filter Event.isFree = [] ∧ ev.filter Event.isWrite = [] := by
  intro fuel
  induction fuel with
  | zero =>
    intro leaf ev h
    by_cases h0 : leaf = 0
    · simp [inv_leaf, h0] at h; subst h; exact ⟨rfl, rfl⟩
    · simp [inv_leaf, h0] at h
  | succ f ih =>
    intro leaf ev h
    by_cases h0 : leaf = 0
    · simp [inv_leaf, h0] at h; subst h; exact ⟨rfl, rfl⟩
    · simp only [inv_leaf, h0, if_false, Option.map_eq_some'] at h
      obtain ⟨r, hr, hev⟩ := h
      obtain ⟨h1, h2⟩ := ih _ r hr
      subst hev
      constructor <;>
        (simp only [List.filter_append, h1, h2]
         by_cases hl : (mem leaf).length = 0 <;> by_cases hs : (mem leaf).sg_next = 0 <;>
           simp [hl, hs, List.filter, Event.isFree, Event.isWrite])

theorem inv_iob_list_quiet (P : Platform) (mem : Mem) :
    ∀ (fuel iob : Nat) (ev : List Event), inv_iob_list P mem fuel iob = some ev →
      ev.filter Event.isFree = [] ∧ ev.filter Event.isWrite = [] := by
  intro fuel
  induction fuel with
  | zero =>
    intro iob ev h
    by_cases h0 : iob = 0
    · simp [inv_iob_list, h0] at h; subst h; exact ⟨rfl, rfl⟩
    · simp [inv_iob_list, h0] at h
  | succ f ih =>
    intro iob ev h
    by_cases h0 : iob = 0
    · simp [inv_iob_list, h0] at h; subst h; exact ⟨rfl, rfl⟩
    · simp only [inv_iob_list, h0, if_false] at h
      cases hlv : inv_leaf P mem f iob with
      | none => simp [hlv] at h
      | some lv =>
        simp only [hlv, Option.map_eq_some'] at h
        obtain ⟨r, hr, hev⟩ := h
        obtain ⟨h1, h2⟩ := ih _ r hr
        obtain ⟨h3, h4⟩ := inv_leaf_quiet P mem f iob lv hlv
        subst hev
        constructor <;>
          (simp only [List.filter_append, h1, h2, h3, h4]
           by_cases hs : (mem iob).next = 0 <;>
             simp [hs, List.filter, Event.isFree, Event.isWrite])

theorem get_of_link (P : Platform) (fuel : Nat) (s : State)
    (hh : s.handle.shared_queue_head ≠ 0)
    (hq : (s.mem s.handle.shared_queue_head).qnext ≠ 0) :
    nvshm_queue_get P fuel s
      = (inv_iob_list P s.mem fuel (P.B2A (s.mem s.handle.shared_queue_head).qnext)).map
          (fun inv_ev =>
            (P.B2A (s.mem s.handle.shared_queue_head).qnext,
              ({ handle :=
                  { s.handle with
                    shared_queue_head := P.B2A (s.mem s.handle.shared_queue_head).qnext
                    conf := { s.handle.conf with
                      queue_bb_offset :=
                        debugOffset s (P.B2A (s.mem s.handle.shared_queue_head).qnext) } }
                 mem := setQnext s.mem s.handle.shared_queue_head 0
                 trace := s.trace ++ getEvents P s inv_ev } : State))) := by
  unfold nvshm_queue_get
  simp only [hh, hq, if_false]
  cases inv_iob_list P s.mem fuel (P.B2A (s.mem s.handle.shared_queue_head).qnext) with
  | none => rfl
  | some inv_ev =>
    simp only [Option.map_some', Option.some.injEq, Prod.mk.injEq, true_and]
    simp [getEvents, debugOffset, setQnext, List.append_assoc]

theorem getEvents_filters (P : Platform) (s : State) (fuel iob : Nat) (inv_ev : List Event)
    (hi : inv_iob_list P s.mem fuel iob = some inv_ev) :
    (getEvents P s inv_ev).filter Event.isFree
        = [Event.free_cluster (s.mem s.handle.shared_queue_head).chan
            s.handle.shared_queue_head]
    ∧ (getEvents P s inv_ev).filter Event.isWrite
        = [Event.write_qnext s.handle.shared_queue_head 0] := by
  obtain ⟨h1, h2⟩ := inv_iob_list_quiet P s.mem fuel iob inv_ev hi
  unfold getEvents
  constructor <;>
    (simp only [List.filter_append, h1, h2]
     split <;> simp [List.filter, Event.isFree, Event.isWrite])

/-- C5, as amended: the postcondition of `nvshm_queue_get` on a queue whose head
is set and whose head node has a queue link.  Whenever the call returns, it
returns `NVSHM_B2A` of the old head's queue link; the head pointer is that item;
the old head's queue link is null; the tail pointer is unchanged; the calls of
`nvshm_iobuf_free_cluster` made are exactly one, on the old head with the channel
its `chan` field names; and when the item is not the old head itself, no free is
made on the item.  No assumption is made on the debug-offset range check.  And
the call does return when the fuel covers the item's finite chain. -/
theorem nvshm_queue_get_post (P : Platform) (fuel : Nat) (s : State)
    (hh : s.handle.shared_queue_head ≠ 0)
    (hq : (s.mem s.handle.shared_queue_head).qnext ≠ 0) :
    (∀ ret s', nvshm_queue_get P fuel s = some (ret, s') →
        ret = P.B2A (s.mem s.handle.shared_queue_head).qnext
        ∧ s'.handle.shared_queue_head = ret
        ∧ (s'.mem s.handle.shared_queue_head).qnext = 0
        ∧ s'.handle.shared_queue_tail = s.handle.shared_queue_tail
        ∧ ∃ ev, s'.trace = s.trace ++ ev
            ∧ ev.filter Event.isFree
                = [Event.free_cluster (s.mem s.handle.shared_queue_head).chan
                    s.handle.shared_queue_head]
            ∧ (ret ≠ s.handle.shared_queue_head → ∀ c, Event.free_cluster c ret ∉ ev))
    ∧ (∀ L, itemChain P s.mem (P.B2A (s.mem s.handle.shared_queue_head).qnext) L = true →
        chainFuel L ≤ fuel →
        ∃ s', nvshm_queue_get P fuel s
          = some (P.B2A (s.mem s.handle.shared_queue_head).qnext, s')) := by
  refine ⟨?_, ?_⟩
  · intro ret s' h
    rw [get_of_link P fuel s hh hq] at h
    simp only [Option.map_eq_some', Prod.mk.injEq] at h
    obtain ⟨inv_ev, hi, hret, hs⟩ := h
    obtain ⟨hfree, _⟩ := getEvents_filters P s fuel _ inv_ev hi
    subst hs
    refine ⟨hret.symm, hret, by simp [setQnext], rfl, getEvents P s inv_ev, rfl, hfree, ?_⟩
    intro hne c hmem
    have hm : Event.free_cluster c ret ∈ (getEvents P s inv_ev).filter Event.isFree := by
      simp [List.mem_filter, hmem, Event.isFree]
    rw [hfree] at hm
    simp only [List.mem_singleton, Event.free_cluster.injEq] at hm
    exact hne hm.2
  · intro L hc hf
    obtain ⟨ev, hev, _⟩ := inv_iob_list_chain P s.mem L _ fuel hc hf
    rw [get_of_link P fuel s hh hq, hev]
    exact ⟨_, rfl⟩

/-- Witness for C5: on the sample queue with one pending buffer, get returns that
buffer, 4192, and makes it the head. -/
theorem nvshm_queue_get_post_witness :
    ∃ s', nvshm_queue_get demoPlatform 2 demoOne = some (4192, s')
      ∧ s'.handle.shared_queue_head = 4192 := by
  obtain ⟨s', hs'⟩ := (nvshm_queue_get_post demoPlatform 2 demoOne (by decide) (by decide)).2
    [[4192]] (by decide) (by decide)
  have h := (nvshm_queue_get_post demoPlatform 2 demoOne (by decide) (by decide)).1 _ s' hs'
  exact ⟨s', hs', h.2.1⟩

/-- Counterexample to C5 as stated: on the sample empty queue a put of the guard
itself, 4144, succeeds; the queue then has a head with a queue link, and get
returns 4144 and calls `nvshm_iobuf_free_cluster` on 4144, the returned item. -/
theorem nvshm_queue_get_frees_returned_item :
    ∃ s1 s2, nvshm_queue_put demoPlatform 2 demoEmpty 4144 = some (0, s1)
      ∧ s1.handle.shared_queue_head ≠ 0
      ∧ (s1.mem s1.handle.shared_queue_head).qnext ≠ 0
      ∧ nvshm_queue_get demoPlatform 2 s1 = some (4144, s2)
      ∧ Event.free_cluster 0 4144 ∈ s2.trace :=
  ⟨_, _, rfl, by decide, by decide, rfl, by decide⟩

theorem inv_iob_list_null (P : Platform) (mem : Mem) (fuel : Nat) :
    inv_iob_list P mem fuel 0 = some [] := by
  cases fuel <;> simp [inv_iob_list]

theorem get_of_empty (P : Platform) (fuel : Nat) (s : State)
    (h : s.handle.shared_queue_head = 0 ∨ (s.mem s.handle.shared_queue_head).qnext = 0) :
    ∃ ev, nvshm_queue_get P fuel s = some (0, { s with trace := s.trace ++ ev })
      ∧ ev.filter Event.isFree = [] ∧ ev.filter Event.isWrite = [] := by
  by_cases hh : s.handle.shared_queue_head = 0
  · exact ⟨_, get_of_null_head P fuel s hh, rfl, rfl⟩
  · have hq : (s.mem s.handle.shared_queue_head).qnext = 0 := h.resolve_left hh
    exact ⟨_, get_of_null_link P fuel s hh hq, rfl, rfl⟩

theorem getN_of_empty (P : Platform) (fuel n : Nat) :
    ∀ (s : State),
      (s.handle.shared_queue_head = 0 ∨ (s.mem s.handle.shared_queue_head).qnext = 0) →
      ∃ s', getN P fuel n s = some (List.replicate n 0, s')
        ∧ s'.handle = s.handle ∧ s'.mem = s.mem := by
  induction n with
  | zero => intro s _; exact ⟨s, rfl, rfl, rfl⟩
  | succ k ih =>
    intro s h
    obtain ⟨ev, hev, _, _⟩ := get_of_empty P fuel s h
    obtain ⟨s', hs', hh', hm'⟩ := ih { s with trace := s.trace ++ ev } h
    exact ⟨s', by simp [getN, hev, hs', List.replicate_succ], hh', hm'⟩

/-- C6, as amended: when `nvshm_queue_get` returns null.  If the head pointer is
null or the head node's queue link is null, the call returns null whatever the
fuel, the handle (head, tail and debug offset included) and the shared region
are unchanged, nothing is freed and nothing stored; so on an initialized empty
queue any number of consecutive gets each return null and leave the queue as it
was.  Conversely, when the call returns null, the head pointer is null, or the
head's queue link is null, or that link translates to the null local pointer;
and in that third case the call does return null. -/
theorem nvshm_queue_get_null (P : Platform) (fuel : Nat) (s : State) :
    (s.handle.shared_queue_head = 0 ∨ (s.mem s.handle.shared_queue_head).qnext = 0 →
        ∃ s', nvshm_queue_get P fuel s = some (0, s')
          ∧ s'.handle = s.handle ∧ s'.mem = s.mem
          ∧ ∃ ev, s'.trace = s.trace ++ ev
              ∧ ev.filter Event.isFree = [] ∧ ev.filter Event.isWrite = [])
    ∧ (s.handle.shared_queue_head ≠ 0 → (s.mem s.handle.shared_queue_head).qnext = 0 →
        ∀ n, ∃ s', getN P fuel n s = some (List.replicate n 0, s')
          ∧ s'.handle = s.handle ∧ s'.mem = s.mem)
    ∧ (∀ s', nvshm_queue_get P fuel s = some (0, s') →
        s.handle.shared_queue_head = 0 ∨ (s.mem s.handle.shared_queue_head).qnext = 0
          ∨ P.B2A (s.mem s.handle.shared_queue_head).qnext = 0)
    ∧ (s.handle.shared_queue_head ≠ 0 → (s.mem s.handle.shared_queue_head).qnext ≠ 0 →
        P.B2A (s.mem s.handle.shared_queue_head).qnext = 0 →
        ∃ s', nvshm_queue_get P fuel s = some (0, s')) := by
  refine ⟨?_, ?_, ?_, ?_⟩
  · intro h
    obtain ⟨ev, hev, h1, h2⟩ := get_of_empty P fuel s h
    exact ⟨_, hev, rfl, rfl, ev, rfl, h1, h2⟩
  · intro _ hq n
    exact getN_of_empty P fuel n s (Or.inr hq)
  · intro s' h
    by_cases hh : s.handle.shared_queue_head = 0
    · exact Or.inl hh
    · by_cases hq : (s.mem s.handle.shared_queue_head).qnext = 0
      · exact Or.inr (Or.inl hq)
      · rw [get_of_link P fuel s hh hq] at h
        simp only [Option.map_eq_some', Prod.mk.injEq] at h
        obtain ⟨_, _, hret, _⟩ := h
        exact Or.inr (Or.inr hret)
  · intro hh hq hz
    rw [get_of_link P fuel s hh hq, hz, inv_iob_list_null]
    exact ⟨_, rfl⟩

/-- Witness for C6: three consecutive gets on the sample empty queue all return
null. -/
theorem nvshm_queue_get_null_witness :
    ∃ s', getN demoPlatform 0 3 demoEmpty = some ([0, 0, 0], s')
      ∧ s'.handle = demoEmpty.handle ∧ s'.mem = demoEmpty.mem :=
  (nvshm_queue_get_null demoPlatform 0 demoEmpty).2.1 (by decide) (by decide) 3

/-- Counterexample to C6 as stated: in the sample state whose guard carries a
non-null queue link that translates to the null local pointer, the head pointer
is set and the head's queue link is not null, yet get returns null; and it has
cleared the head pointer and freed the guard. -/
theorem nvshm_queue_get_null_with_link :
    ∃ s', nvshm_queue_get demoPlatform 0 demoLinkToNull = some (0, s')
      ∧ demoLinkToNull.handle.shared_queue_head ≠ 0
      ∧ (demoLinkToNull.mem demoLinkToNull.handle.shared_queue_head).qnext ≠ 0
      ∧ s'.handle.shared_queue_head ≠ demoLinkToNull.handle.shared_queue_head
      ∧ Event.free_cluster 0 4144 ∈ s'.trace :=
  ⟨_, rfl, by decide, by decide, by decide, by decide⟩

/-- C7, as amended: the tail invariant.  In a state with head and tail set and the
tail node's queue link null: after a put that fails, after a put that succeeds
with an item whose own queue link is null and that is not the tail node, and
after a get, the tail node's queue link is again null. -/
theorem tail_link_null_preserved (P : Platform) (fuel : Nat) (s : State)
    (hh : s.handle.shared_queue_head ≠ 0) (_ht : s.handle.shared_queue_tail ≠ 0)
    (hq : (s.mem s.handle.shared_queue_tail).qnext = 0) :
    (∀ iob r s', nvshm_queue_put P fuel s iob = some (r, s') →
        (r = 0 → (s.mem iob).qnext = 0 ∧ iob ≠ s.handle.shared_queue_tail) →
        (s'.mem s'.handle.shared_queue_tail).qnext = 0)
    ∧ (∀ r s', nvshm_queue_get P fuel s = some (r, s') →
        (s'.mem s'.handle.shared_queue_tail).qnext = 0) := by
  refine ⟨?_, ?_⟩
  · intro iob r s' h hr
    cases hok : putOk s iob with
    | false =>
      obtain ⟨ev, hev, _⟩ := put_of_not_ok P fuel s iob hok
      rw [hev] at h
      simp only [Option.some.injEq, Prod.mk.injEq] at h
      obtain ⟨_, hs⟩ := h
      subst hs
      exact hq
    | true =>
      rw [put_of_ok P fuel s iob hok] at h
      simp only [Option.map_eq_some', Prod.mk.injEq] at h
      obtain ⟨fl, _, h0, hs⟩ := h
      obtain ⟨hi, hne⟩ := hr h0.symm
      subst hs
      simp [setQnext, hne, hi]
  · intro r s' h
    by_cases hl : (s.mem s.handle.shared_queue_head).qnext = 0
    · obtain ⟨ev, hev, _, _⟩ := get_of_empty P fuel s (Or.inr hl)
      rw [hev] at h
      simp only [Option.some.injEq, Prod.mk.injEq] at h
      obtain ⟨_, hs⟩ := h
      subst hs
      exact hq
    · rw [get_of_link P fuel s hh hl] at h
      simp only [Option.map_eq_some', Prod.mk.injEq] at h
      obtain ⟨_, _, _, hs⟩ := h
      subst hs
      by_cases heq : s.handle.shared_queue_tail = s.handle.shared_queue_head
      · simp [setQnext, heq]
      · simp [setQnext, heq, hq]

/-- Witness for C7: on the sample empty queue the put of the blank buffer at 4192
succeeds and the new tail's queue link is null. -/
theorem tail_link_null_preserved_witness :
    ∃ s', nvshm_queue_put demoPlatform 2 demoEmpty 4192 = some (0, s')
      ∧ (s'.mem s'.handle.shared_queue_tail).qnext = 0 :=
  ⟨_, rfl, (tail_link_null_preserved demoPlatform 2 demoEmpty (by decide) (by decide)
      (by decide)).1 4192 0 _ rfl (fun _ => ⟨by decide, by decide⟩)⟩

/-- Counterexample to C7 as stated: on an initialized queue whose tail link is
null, a put of a buffer whose own queue link is still set succeeds and leaves a
tail whose queue link is not null; so does a put of the tail node itself. -/
theorem tail_link_set_after_put :
    (∃ s', nvshm_queue_put demoPlatform 2 demoStale 4192 = some (0, s')
      ∧ demoStale.handle.shared_queue_head ≠ 0 ∧ demoStale.handle.shared_queue_tail ≠ 0
      ∧ (demoStale.mem demoStale.handle.shared_queue_tail).qnext = 0
      ∧ (s'.mem s'.handle.shared_queue_tail).qnext ≠ 0)
    ∧ (∃ s', nvshm_queue_put demoPlatform 2 demoEmpty 4144 = some (0, s')
      ∧ demoEmpty.handle.shared_queue_head ≠ 0 ∧ demoEmpty.handle.shared_queue_tail ≠ 0
      ∧ (demoEmpty.mem demoEmpty.handle.shared_queue_tail).qnext = 0
      ∧ (s'.mem s'.handle.shared_queue_tail).qnext ≠ 0) :=
  ⟨⟨_, rfl, by decide, by decide, by decide, by decide⟩,
   ⟨_, rfl, by decide, by decide, by decide, by decide⟩⟩

/-! ## The queue as a list of pending items -/

theorem sgChain_setQnext (P : Platform) (mem : Mem) (n v : Nat) (frags : List Nat) :
    ∀ leaf, sgChain P (setQnext mem n v) leaf frags = sgChain P mem leaf frags := by
  induction frags with
  | nil => intro leaf; rfl
  | cons a rest ih =>
    intro leaf
    have hs : sgSucc P (setQnext mem n v) leaf = sgSucc P mem leaf := by
      unfold sgSucc setQnext
      by_cases h : leaf = n <;> simp [h]
    simp only [sgChain, hs, ih]

theorem itemChain_setQnext (P : Platform) (mem : Mem) (n v : Nat) (L : List (List Nat)) :
    ∀ iob, itemChain P (setQnext mem n v) iob L = itemChain P mem iob L := by
  induction L with
  | nil => intro iob; rfl
  | cons frags rest ih =>
    intro iob
    have hs : itemSucc P (setQnext mem n v) iob = itemSucc P mem iob := by
      unfold itemSucc setQnext
      by_cases h : iob = n <;> simp [h]
    simp only [itemChain, hs, ih, sgChain_setQnext]

theorem qchain_tail (P : Platform) (mem : Mem) (t : Nat) (pend : List Nat) :
    ∀ h, qchain P mem t h pend = true →
      (mem t).qnext = 0 ∧ t ∈ h :: pend ∧ (pend ≠ [] → t ∈ pend) := by
  induction pend with
  | nil =>
    intro h hc
    simp [qchain] at hc
    obtain ⟨h1, h2⟩ := hc
    subst h1
    exact ⟨h2, by simp, fun hne => absurd rfl hne⟩
  | cons x xs ih =>
    intro h hc
    simp [qchain] at hc
    obtain ⟨h1, h2, h3⟩ := ih x hc.2
    exact ⟨h1, List.mem_cons_of_mem _ h2, fun _ => h2⟩

theorem qchain_congr (P : Platform) (mem mem' : Mem) (t : Nat) (pend : List Nat) :
    ∀ h, (∀ n ∈ h :: pend, (mem' n).qnext = (mem n).qnext) →
      qchain P mem' t h pend = qchain P mem t h pend := by
  induction pend with
  | nil =>
    intro h hm
    simp [qchain, hm h (by simp)]
  | cons x xs ih =>
    intro h hm
    have hx := ih x (fun n hn => hm n (List.mem_cons_of_mem _ hn))
    simp only [qchain, hm h (by simp), hx]

theorem qchain_put (P : Platform) (mem : Mem) (t x : Nat) (pend : List Nat)
    (hx0 : (mem x).qnext = 0) (hA : P.A2B x ≠ 0) (hBA : P.B2A (P.A2B x) = x) :
    ∀ h, qchain P mem t h pend = true → (h :: pend).Nodup → x ∉ h :: pend →
      qchain P (setQnext mem t (P.A2B x)) x h (pend ++ [x]) = true := by
  induction pend with
  | nil =>
    intro h hc _ hx
    simp [qchain] at hc
    obtain ⟨h1, _⟩ := hc
    subst h1
    have hxh : x ≠ h := by
      intro e; exact hx (by simp [e])
    simp [qchain, setQnext, hA, hBA, hxh, hx0]
  | cons y ys ih =>
    intro h hc hnd hx
    have hc' := hc
    simp [qchain] at hc
    obtain ⟨⟨hq, hy⟩, hrest⟩ := hc
    obtain ⟨_, _, htm⟩ := qchain_tail P mem t (y :: ys) h hc'
    have htin : t ∈ y :: ys := htm (by simp)
    have hht : h ≠ t := by
      intro e
      rw [List.nodup_cons] at hnd
      exact hnd.1 (e ▸ htin)
    have hrec := ih y hrest (List.nodup_cons.mp hnd).2
      (fun hm => hx (List.mem_cons_of_mem _ hm))
    simp only [List.cons_append, qchain, Bool.and_eq_true, decide_eq_true_eq]
    refine ⟨⟨?_, ?_⟩, hrec⟩
    · simpa [setQnext, hht] using hq
    · simpa [setQnext, hht] using hy

theorem wfQueue_put (P : Platform) (fuel : Nat) (s : State) (pend : List Nat) (x : Nat)
    (L : List (List Nat)) (hwf : wfQueue P s pend) (hx : x ∉ s.handle.shared_queue_head :: pend)
    (hx0 : x ≠ 0) (hxq : (s.mem x).qnext = 0) (hA : P.A2B x ≠ 0)
    (hBA : P.B2A (P.A2B x) = x) (hc : itemChain P s.mem x L = true)
    (hf : chainFuel L ≤ fuel) :
    ∃ s', nvshm_queue_put P fuel s x = some (0, s')
      ∧ wfQueue P s' (pend ++ [x])
      ∧ s'.mem = setQnext s.mem s.handle.shared_queue_tail (P.A2B x)
      ∧ s'.handle.shared_queue_head = s.handle.shared_queue_head
      ∧ s'.handle.ipc_base_virt = s.handle.ipc_base_virt := by
  obtain ⟨hq, hnd, hnz⟩ := hwf
  obtain ⟨htq, htin, _⟩ := qchain_tail P s.mem _ pend _ hq
  have hok : putOk s x = true := by
    simp [putOk, hnz _ htin, hx0, htq]
  obtain ⟨fl, hfl, _⟩ := flush_iob_list_chain P s.mem L x fuel hc hf
  rw [put_of_ok P fuel s x hok, hfl]
  refine ⟨_, rfl, ⟨?_, ?_, ?_⟩, rfl, rfl, rfl⟩
  · exact qchain_put P s.mem _ x pend hxq hA hBA _ hq hnd hx
  · show (s.handle.shared_queue_head :: (pend ++ [x])).Nodup
    rw [← List.cons_append]
    refine List.Nodup.append hnd (List.nodup_singleton x) ?_
    intro a ha hax
    simp only [List.mem_singleton] at hax
    subst hax
    exact hx ha
  · intro n hn
    show n ≠ 0
    rw [← List.cons_append, List.mem_append] at hn
    cases hn with
    | inl h => exact hnz n h
    | inr h => simp only [List.mem_singleton] at h; subst h; exact hx0

theorem wfQueue_get (P : Platform) (fuel : Nat) (s : State) (x : Nat) (xs : List Nat)
    (L : List (List Nat)) (hwf : wfQueue P s (x :: xs))
    (hc : itemChain P s.mem x L = true) (hf : chainFuel L ≤ fuel) :
    ∃ s', nvshm_queue_get P fuel s = some (x, s')
      ∧ wfQueue P s' xs
      ∧ s'.mem = setQnext s.mem s.handle.shared_queue_head 0
      ∧ s'.handle.shared_queue_tail = s.handle.shared_queue_tail
      ∧ s'.handle.ipc_base_virt = s.handle.ipc_base_virt := by
  obtain ⟨hq, hnd, hnz⟩ := hwf
  simp [qchain] at hq
  obtain ⟨⟨hl, hlx⟩, hrest⟩ := hq
  have hh : s.handle.shared_queue_head ≠ 0 := hnz _ (by simp)
  subst hlx
  obtain ⟨ev, hev, _⟩ := inv_iob_list_chain P s.mem L _ fuel hc hf
  rw [get_of_link P fuel s hh hl, hev]
  refine ⟨_, rfl, ⟨?_, ?_, ?_⟩, rfl, rfl, rfl⟩
  · show qchain P (setQnext s.mem s.handle.shared_queue_head 0) s.handle.shared_queue_tail
      (P.B2A (s.mem s.handle.shared_queue_head).qnext) xs = true
    rw [qchain_congr P s.mem _ _ xs _ ?_]
    · exact hrest
    · intro n hn
      have hne : n ≠ s.handle.shared_queue_head := by
        intro e
        rw [List.nodup_cons] at hnd
        exact hnd.1 (e ▸ hn)
      simp [setQnext, hne]
  · exact (List.nodup_cons.mp hnd).2
  · intro n hn
    exact hnz n (List.mem_cons_of_mem _ hn)

theorem putAll_wf (P : Platform) (fuel : Nat) :
    ∀ (items : List Nat) (s : State) (pend : List Nat), wfQueue P s pend → items.Nodup →
      (∀ a ∈ items, a ∉ s.handle.shared_queue_head :: pend ∧ a ≠ 0 ∧ (s.mem a).qnext = 0
          ∧ P.A2B a ≠ 0 ∧ P.B2A (P.A2B a) = a
          ∧ ∃ L, itemChain P s.mem a L = true ∧ chainFuel L ≤ fuel) →
      ∃ s', putAll P fuel items s = some (List.replicate items.length 0, s')
        ∧ wfQueue P s' (pend ++ items)
        ∧ (∀ a L, itemChain P s'.mem a L = itemChain P s.mem a L) := by
  intro items
  induction items with
  | nil =>
    intro s pend hwf _ _
    exact ⟨s, rfl, by simpa using hwf, fun _ _ => rfl⟩
  | cons a rest ih =>
    intro s pend hwf hnd hall
    obtain ⟨hnin, ha0, haq, hA, hBA, L, hc, hf⟩ := hall a (by simp)
    obtain ⟨s1, hput, hwf1, hmem1, hhead1, _⟩ :=
      wfQueue_put P fuel s pend a L hwf hnin ha0 haq hA hBA hc hf
    obtain ⟨_, htin, _⟩ := qchain_tail P s.mem _ pend _ hwf.1
    have hrest : ∀ b ∈ rest, b ∉ s1.handle.shared_queue_head :: (pend ++ [a]) ∧ b ≠ 0
        ∧ (s1.mem b).qnext = 0 ∧ P.A2B b ≠ 0 ∧ P.B2A (P.A2B b) = b
        ∧ ∃ L, itemChain P s1.mem b L = true ∧ chainFuel L ≤ fuel := by
      intro b hb
      obtain ⟨hbn, hb0, hbq, hbA, hbBA, Lb, hbc, hbf⟩ := hall b (List.mem_cons_of_mem _ hb)
      have hba : b ≠ a := by
        intro e
        subst e
        exact (List.nodup_cons.mp hnd).1 hb
      have hbt : b ≠ s.handle.shared_queue_tail := by
        intro e
        exact hbn (e ▸ htin)
      refine ⟨?_, hb0, ?_, hbA, hbBA, Lb, ?_, hbf⟩
      · rw [hhead1, ← List.cons_append, List.mem_append]
        intro hm
        cases hm with
        | inl h => exact hbn h
        | inr h => exact hba (by simpa using h)
      · rw [hmem1]
        simpa [setQnext, hbt] using hbq
      · rw [hmem1, itemChain_setQnext]
        exact hbc
    obtain ⟨s', hrestput, hwf', hchain'⟩ := ih s1 (pend ++ [a]) hwf1 (List.nodup_cons.mp hnd).2 hrest
    refine ⟨s', ?_, ?_, ?_⟩
    · simp [putAll, hput, hrestput, List.replicate_succ]
    · simpa [List.append_assoc] using hwf'
    · intro b Lb
      rw [hchain', hmem1, itemChain_setQnext]

theorem getN_wf (P : Platform) (fuel : Nat) :
    ∀ (pend : List Nat) (s : State), wfQueue P s pend →
      (∀ x ∈ pend, ∃ L, itemChain P s.mem x L = true ∧ chainFuel L ≤ fuel) →
      ∃ s', getN P fuel pend.length s = some (pend, s') ∧ wfQueue P s' [] := by
  intro pend
  induction pend with
  | nil =>
    intro s hwf _
    exact ⟨s, rfl, hwf⟩
  | cons x xs ih =>
    intro s hwf hall
    obtain ⟨L, hc, hf⟩ := hall x (by simp)
    obtain ⟨s1, hget, hwf1, hmem1, _, _⟩ := wfQueue_get P fuel s x xs L hwf hc hf
    have hrest : ∀ y ∈ xs, ∃ L, itemChain P s1.mem y L = true ∧ chainFuel L ≤ fuel := by
      intro y hy
      obtain ⟨Ly, hyc, hyf⟩ := hall y (List.mem_cons_of_mem _ hy)
      exact ⟨Ly, by rw [hmem1, itemChain_setQnext]; exact hyc, hyf⟩
    obtain ⟨s', hgets, hwf'⟩ := ih s1 hwf1 hrest
    exact ⟨s', by simp [getN, hget, hgets], hwf'⟩

/-- C1, as amended: FIFO order.  Start from an initialized empty queue (head and
tail are the same non-null guard, whose queue link is null) and take pairwise
distinct buffers that are not null, are not the guard, have a null queue link,
survive the round trip through the two translations, have a peer address that
is not null, and head finite chains that the fuel covers.  Then putting them one
after the other returns 0 every time, and as many gets then return the same
buffers in the same order. -/
theorem nvshm_queue_fifo (P : Platform) (fuel : Nat) (s : State) (items : List Nat)
    (hg : s.handle.shared_queue_head ≠ 0)
    (hht : s.handle.shared_queue_tail = s.handle.shared_queue_head)
    (hq : (s.mem s.handle.shared_queue_head).qnext = 0)
    (hnd : items.Nodup)
    (hitems : ∀ a ∈ items, a ≠ 0 ∧ a ≠ s.handle.shared_queue_head ∧ (s.mem a).qnext = 0
        ∧ P.B2A (P.A2B a) = a ∧ P.A2B a ≠ 0
        ∧ ∃ L, itemChain P s.mem a L = true ∧ chainFuel L ≤ fuel) :
    ∃ s1 s2, putAll P fuel items s = some (List.replicate items.length 0, s1)
      ∧ getN P fuel items.length s1 = some (items, s2) := by
  have hwf : wfQueue P s [] := by
    refine ⟨by simp [qchain, hht, hq], by simp, ?_⟩
    intro n hn
    simp only [List.mem_singleton] at hn
    subst hn
    exact hg
  obtain ⟨s1, hput, hwf1, hchain⟩ := putAll_wf P fuel items s [] hwf hnd (by
    intro a ha
    obtain ⟨h0, hne, haq, hBA, hA, hL⟩ := hitems a ha
    exact ⟨by simpa using hne, h0, haq, hA, hBA, hL⟩)
  obtain ⟨s2, hget, _⟩ := getN_wf P fuel items s1 (by simpa using hwf1) (by
    intro x hx
    obtain ⟨_, _, _, _, _, L, hc, hf⟩ := hitems x hx
    exact ⟨L, by rw [hchain]; exact hc, hf⟩)
  exact ⟨s1, s2, hput, hget⟩

/-- Witness for C1: two blank buffers put on the sample empty queue come back in
the order they were put. -/
theorem nvshm_queue_fifo_witness :
    ∃ s1 s2, putAll demoPlatform 2 [4192, 4240] demoEmpty = some ([0, 0], s1)
      ∧ getN demoPlatform 2 2 s1 = some ([4192, 4240], s2) :=
  nvshm_queue_fifo demoPlatform 2 demoEmpty [4192, 4240] (by decide) (by decide) (by decide)
    (by decide) (by
      intro a ha
      simp only [List.mem_cons, List.mem_singleton, List.not_mem_nil, or_false] at ha
      rcases ha with rfl | rfl
      · exact ⟨by decide, by decide, by decide, by decide, by decide, [[4192]], by decide,
          by decide⟩
      · exact ⟨by decide, by decide, by decide, by decide, by decide, [[4240]], by decide,
          by decide⟩)

/-- Counterexample to C1 as stated: with peer addresses that are plain offsets
from the local base 4096, the buffer at 4096 is not null, is not the guard, has
a null queue link and survives the round trip through the two translations; its
put on the sample empty queue returns 0, yet the following get returns null and
not the buffer.  The same happens with the sample translation (peer base 1024)
for the buffer at 3072. -/
theorem nvshm_queue_fifo_lost_item :
    (∃ s1 s2, putAll demoOffsets 2 [4096] demoEmpty = some ([0], s1)
        ∧ getN demoOffsets 2 1 s1 = some ([0], s2))
    ∧ (demoEmpty.handle.shared_queue_head = demoEmpty.handle.shared_queue_tail
        ∧ demoEmpty.handle.shared_queue_head ≠ 0
        ∧ (demoEmpty.mem demoEmpty.handle.shared_queue_head).qnext = 0
        ∧ 4096 ≠ demoEmpty.handle.shared_queue_head
        ∧ (demoEmpty.mem 4096).qnext = 0
        ∧ demoOffsets.B2A (demoOffsets.A2B 4096) = 4096)
    ∧ (∃ s1 s2, putAll demoPlatform 2 [3072] demoEmpty = some ([0], s1)
        ∧ getN demoPlatform 2 1 s1 = some ([0], s2))
    ∧ (3072 ≠ demoEmpty.handle.shared_queue_head
        ∧ (demoEmpty.mem 3072).qnext = 0
        ∧ demoPlatform.B2A (demoPlatform.A2B 3072) = 3072) :=
  ⟨⟨_, _, rfl, rfl⟩, by decide, ⟨_, _, rfl, rfl⟩, by decide⟩

/-! ## nvshm_init_queue -/

/-- C12: `nvshm_init_queue` returns 0 if and only if the IPC base and the
descriptor base are not zero and the descriptor-zone size is a multiple of
`sizeof(struct nvshm_iobuf)`; otherwise it returns a non-zero status, `-ENOMEM`
for a missing base and `-EINVAL` for a bad size; in every case the handle (head
and tail pointers included) and the shared region are left as they were. -/
theorem nvshm_init_queue_status (P : Platform) (s : State) :
    ((nvshm_init_queue P s).1 = 0 ↔
        (s.handle.ipc_base_virt ≠ 0 ∧ s.handle.desc_base_virt ≠ 0
          ∧ P.sizeof_iobuf ∣ s.handle.desc_size))
    ∧ ((nvshm_init_queue P s).1 = 0 ∨ (nvshm_init_queue P s).1 = -ENOMEM
        ∨ (nvshm_init_queue P s).1 = -EINVAL)
    ∧ (nvshm_init_queue P s).2.handle = s.handle
    ∧ (nvshm_init_queue P s).2.mem = s.mem := by
  by_cases hb : s.handle.ipc_base_virt = 0 ∨ s.handle.desc_base_virt = 0
  · have e : nvshm_init_queue P s
        = (-ENOMEM, { s with trace := s.trace
            ++ [Event.pr_debug, Event.pr_err ErrMsg.init_no_base] }) := by
      simp [nvshm_init_queue, hb]
    rw [e]
    have hne : (-ENOMEM : Int) ≠ 0 := by decide
    refine ⟨⟨fun h => absurd h hne, fun h => ?_⟩, Or.inr (Or.inl rfl), rfl, rfl⟩
    rcases hb with hb | hb
    · exact absurd hb h.1
    · exact absurd hb h.2.1
  · have hb' : s.handle.ipc_base_virt ≠ 0 ∧ s.handle.desc_base_virt ≠ 0 :=
      ⟨fun h => hb (Or.inl h), fun h => hb (Or.inr h)⟩
    by_cases hm : s.handle.desc_size % P.sizeof_iobuf = 0
    · have e : nvshm_init_queue P s
          = (0, { s with trace := s.trace ++ [Event.pr_debug] }) := by
        simp [nvshm_init_queue, hb'.1, hb'.2, hm]
      rw [e]
      exact ⟨⟨fun _ => ⟨hb'.1, hb'.2, Nat.dvd_of_mod_eq_zero hm⟩, fun _ => rfl⟩,
        Or.inl rfl, rfl, rfl⟩
    · have e : nvshm_init_queue P s
          = (-EINVAL, { s with trace := s.trace
              ++ [Event.pr_debug, Event.pr_err ErrMsg.init_bad_size] }) := by
        simp [nvshm_init_queue, hb'.1, hb'.2, hm]
      rw [e]
      have hne : (-EINVAL : Int) ≠ 0 := by decide
      exact ⟨⟨fun h => absurd h hne,
          fun h => absurd (Nat.mod_eq_zero_of_dvd h.2.2) hm⟩,
        Or.inr (Or.inr rfl), rfl, rfl⟩

/-! ## The address translation -/

/-- C14: the round trip of the address translation, on the offset translation
modelled from the spec.  For every local pointer `p` of the 32-bit address
space, translating to the peer side and back gives `p`; in particular for every
`p` inside a shared window `[ipc_base, ipc_base + shmem_size)` that lies within
that address space. -/
theorem offsetPlatform_round_trip (ipc_base bb_base size pool shmem_size p : Nat) :
    (p < W →
      (offsetPlatform ipc_base bb_base size pool).B2A
        ((offsetPlatform ipc_base bb_base size pool).A2B p) = p)
    ∧ (ipc_base + shmem_size ≤ W → ipc_base ≤ p → p < ipc_base + shmem_size →
      (offsetPlatform ipc_base bb_base size pool).B2A
        ((offsetPlatform ipc_base bb_base size pool).A2B p) = p) := by
  have key : p < W →
      (offsetPlatform ipc_base bb_base size pool).B2A
        ((offsetPlatform ipc_base bb_base size pool).A2B p) = p := by
    intro hp
    simp only [offsetPlatform, W] at hp ⊢
    omega
  exact ⟨key, fun hfit _ hhi => key (by omega)⟩

/-- Witness for C14: the pointer 4192 of the sample window survives the round
trip through the sample translation. -/
theorem offsetPlatform_round_trip_witness :
    demoPlatform.B2A (demoPlatform.A2B 4192) = 4192 :=
  (offsetPlatform_round_trip 4096 1024 48 2 65536 4192).2 (by decide) (by decide) (by decide)

/-- Witness for C12: on the sample handle (bases 4096 and 8192, a zone of 4800
bytes, 48-byte descriptors) `nvshm_init_queue` returns 0. -/
theorem nvshm_init_queue_status_witness :
    (nvshm_init_queue demoPlatform demoEmpty).1 = 0 :=
  (nvshm_init_queue_status demoPlatform demoEmpty).1.2 ⟨by decide, by decide, by decide⟩

/-! ## The debug offset -/

/-- C15, as amended: the debug offset.  On an initialized queue, whenever
`nvshm_queue_get` returns: if the head's queue link was not null, the field
`queue_bb_offset` is the new head's address minus the IPC base, both cast to
`int`, the difference wrapped to `int`; if the link was null (empty queue) the
configuration and the head pointer are unchanged; hence the field equals head
minus base after the call whenever it did before.  On an empty queue the call
does return. -/
theorem nvshm_queue_get_debug_offset (P : Platform) (fuel : Nat) (s : State)
    (hh : s.handle.shared_queue_head ≠ 0) :
    (∀ r s', nvshm_queue_get P fuel s = some (r, s') →
        ((s.mem s.handle.shared_queue_head).qnext ≠ 0 →
          s'.handle.conf.queue_bb_offset
            = wrapInt32 (toInt32 s'.handle.shared_queue_head
                          - toInt32 s'.handle.ipc_base_virt))
        ∧ ((s.mem s.handle.shared_queue_head).qnext = 0 →
            s'.handle.conf = s.handle.conf
            ∧ s'.handle.shared_queue_head = s.handle.shared_queue_head
            ∧ s'.handle.ipc_base_virt = s.handle.ipc_base_virt)
        ∧ (s.handle.conf.queue_bb_offset
              = wrapInt32 (toInt32 s.handle.shared_queue_head
                            - toInt32 s.handle.ipc_base_virt) →
            s'.handle.conf.queue_bb_offset
              = wrapInt32 (toInt32 s'.handle.shared_queue_head
                            - toInt32 s'.handle.ipc_base_virt)))
    ∧ ((s.mem s.handle.shared_queue_head).qnext = 0 →
        ∃ s', nvshm_queue_get P fuel s = some (0, s')) := by
  refine ⟨?_, ?_⟩
  · intro r s' h
    by_cases hq : (s.mem s.handle.shared_queue_head).qnext = 0
    · rw [get_of_null_link P fuel s hh hq] at h
      simp only [Option.some.injEq, Prod.mk.injEq] at h
      obtain ⟨_, hs⟩ := h
      subst hs
      exact ⟨fun h1 => absurd hq h1, fun _ => ⟨rfl, rfl, rfl⟩, fun h1 => h1⟩
    · rw [get_of_link P fuel s hh hq] at h
      simp only [Option.map_eq_some', Prod.mk.injEq] at h
      obtain ⟨_, _, _, hs⟩ := h
      subst hs
      exact ⟨fun _ => rfl, fun h1 => absurd h1 hq, fun _ => rfl⟩
  · intro hq
    exact ⟨_, get_of_null_link P fuel s hh hq⟩

/-- Witness for C15: on the sample queue with one pending buffer at 4192 the get
stores the offset 96 of the new head from the base 4096. -/
theorem nvshm_queue_get_debug_offset_witness :
    ∃ s', nvshm_queue_get demoPlatform 2 demoOne = some (4192, s')
      ∧ s'.handle.conf.queue_bb_offset = 96 := by
  refine ⟨_, rfl, ?_⟩
  rw [(nvshm_queue_get_debug_offset demoPlatform 2 demoOne (by decide)).1 4192 _ rfl |>.1
    (by decide)]
  decide

/-- Counterexample to C15 as stated: the sample empty queue is initialized, its
head is at 4144 and the IPC base is 4096, and its debug offset field holds 0; a
get reports empty and the field still holds 0, not the head's offset 48. -/
theorem nvshm_queue_get_empty_keeps_offset :
    ∃ s', nvshm_queue_get demoPlatform 0 demoEmpty = some (0, s')
      ∧ demoEmpty.handle.shared_queue_head ≠ 0
      ∧ s'.handle.conf.queue_bb_offset = 0
      ∧ wrapInt32 (toInt32 s'.handle.shared_queue_head
                    - toInt32 s'.handle.ipc_base_virt) = 48 :=
  ⟨_, rfl, by decide, by decide, by decide⟩

/-! ## The out-of-bound diagnostic -/

theorem inv_leaf_kinds (P : Platform) (mem : Mem) :
    ∀ (fuel leaf : Nat) (ev : List Event), inv_leaf P mem fuel leaf = some ev →
      ∀ e ∈ ev, e.isInv = true ∨ e.isRead = true := by
  intro fuel
  induction fuel with
  | zero =>
    intro leaf ev h
    by_cases h0 : leaf = 0
    · simp [inv_leaf, h0] at h; subst h; simp
    · simp [inv_leaf, h0] at h
  | succ f ih =>
    intro leaf ev h
    by_cases h0 : leaf = 0
    · simp [inv_leaf, h0] at h; subst h; simp
    · simp only [inv_leaf, h0, if_false, Option.map_eq_some'] at h
      obtain ⟨r, hr, hev⟩ := h
      have hrec := ih _ r hr
      subst hev
      intro e he
      simp only [List.mem_append] at he
      rcases he with (he | he) | he
      · by_cases hl : (mem leaf).length = 0
        · simp only [hl, ne_eq, not_true_eq_false, if_false, List.append_nil] at he
          simp only [List.mem_cons, List.mem_singleton, List.not_mem_nil, or_false] at he
          rcases he with rfl | rfl <;> simp [Event.isInv, Event.isRead]
        · simp only [hl, ne_eq, not_false_eq_true, if_true, List.mem_append] at he
          simp only [List.mem_cons, List.mem_singleton, List.not_mem_nil, or_false] at he
          rcases he with (rfl | rfl) | rfl | rfl | rfl | rfl <;>
            simp [Event.isInv, Event.isRead]
      · by_cases hs : (mem leaf).sg_next = 0
        · simp only [hs, ne_eq, not_true_eq_false, if_false] at he
          simp only [List.mem_singleton] at he
          subst he
          simp [Event.isRead]
        · simp only [hs, ne_eq, not_false_eq_true, if_true] at he
          simp only [List.mem_cons, List.mem_singleton, List.not_mem_nil, or_false] at he
          rcases he with rfl | rfl <;> simp [Event.isRead]
      · exact hrec e he

theorem inv_iob_list_kinds (P : Platform) (mem : Mem) :
    ∀ (fuel iob : Nat) (ev : List Event), inv_iob_list P mem fuel iob = some ev →
      ∀ e ∈ ev, e.isInv = true ∨ e.isRead = true := by
  intro fuel
  induction fuel with
  | zero =>
    intro iob ev h
    by_cases h0 : iob = 0
    · simp [inv_iob_list, h0] at h; subst h; simp
    · simp [inv_iob_list, h0] at h
  | succ f ih =>
    intro iob ev h
    by_cases h0 : iob = 0
    · simp [inv_iob_list, h0] at h; subst h; simp
    · simp only [inv_iob_list, h0, if_false] at h
      cases hlv : inv_leaf P mem f iob with
      | none => simp [hlv] at h
      | some lv =>
        simp only [hlv, Option.map_eq_some'] at h
        obtain ⟨r, hr, hev⟩ := h
        have hrec := ih _ r hr
        have hleaf := inv_leaf_kinds P mem f iob lv hlv
        subst hev
        intro e he
        simp only [List.mem_append] at he
        rcases he with (he | he) | he
        · exact hleaf e he
        · by_cases hs : (mem iob).next = 0
          · simp only [hs, ne_eq, not_true_eq_false, if_false] at he
            simp only [List.mem_singleton] at he
            subst he
            simp [Event.isRead]
          · simp only [hs, ne_eq, not_false_eq_true, if_true] at he
            simp only [List.mem_cons, List.mem_singleton, List.not_mem_nil, or_false] at he
            rcases he with rfl | rfl <;> simp [Event.isRead]
        · exact hrec e he

theorem getEvents_out_of_bound (P : Platform) (s : State) (fuel iob : Nat)
    (inv_ev : List Event) (hi : inv_iob_list P s.mem fuel iob = some inv_ev) :
    Event.pr_err ErrMsg.out_of_bound ∈ getEvents P s inv_ev ↔
      (debugOffset s (P.B2A (s.mem s.handle.shared_queue_head).qnext) < 0
        ∨ debugOffset s (P.B2A (s.mem s.handle.shared_queue_head).qnext)
            > s.handle.conf.shmem_size) := by
  have hk := inv_iob_list_kinds P s.mem fuel iob inv_ev hi
  have hno : Event.pr_err ErrMsg.out_of_bound ∉ inv_ev := by
    intro hm
    have := hk _ hm
    simp [Event.isInv, Event.isRead] at this
  unfold getEvents
  by_cases hc : debugOffset s (P.B2A (s.mem s.handle.shared_queue_head).qnext) < 0
        ∨ debugOffset s (P.B2A (s.mem s.handle.shared_queue_head).qnext)
            > s.handle.conf.shmem_size
  · simp [hc]
  · simp [hc, hno]

/-- C19, evaluated where the code departs from the claim: in the sample state the
dequeued node lies at the IPC base plus the size of the shared region, so the
debug offset computed by `nvshm_queue_get` equals `shmem_size`, which is outside
the region; the call logs no out-of-bound line. -/
theorem nvshm_queue_get_offset_at_size_not_logged :
    ∃ s', nvshm_queue_get demoPlatform 2 demoAtSize = some (69632, s')
      ∧ s'.handle.conf.queue_bb_offset = 65536
      ∧ s'.handle.conf.shmem_size = 65536
      ∧ Event.pr_err ErrMsg.out_of_bound ∉ s'.trace :=
  ⟨_, rfl, by decide, by decide, by decide⟩

/-! ## Invalidate before read -/

theorem invBeforeRead_mono (size : Nat) (ev : List Event) :
    ∀ (seen seen' : List (Nat × Nat)), (∀ x ∈ seen, x ∈ seen') →
      invBeforeRead size seen ev = true → invBeforeRead size seen' ev = true := by
  induction ev with
  | nil => intro _ _ _ _; rfl
  | cons e rest ih =>
    intro seen seen' hsub h
    cases e with
    | inv va sz =>
      simp only [invBeforeRead] at h ⊢
      refine ih _ _ ?_ h
      intro x hx
      simp only [List.mem_cons] at hx ⊢
      rcases hx with hx | hx
      · exact Or.inl hx
      · exact Or.inr (hsub x hx)
    | read n f =>
      simp only [invBeforeRead, Bool.and_eq_true, decide_eq_true_eq] at h ⊢
      exact ⟨hsub _ h.1, ih _ _ hsub h.2⟩
    | _ => exact ih _ _ hsub h

theorem invBeforeRead_append (size : Nat) (a b : List Event) :
    ∀ (seen : List (Nat × Nat)),
      invBeforeRead size seen (a ++ b)
        = (invBeforeRead size seen a
            && invBeforeRead size ((invRegions a).reverse ++ seen) b) := by
  induction a with
  | nil => intro seen; simp [invBeforeRead, invRegions]
  | cons e rest ih =>
    intro seen
    cases e <;> simp [invBeforeRead, invRegions, ih, Bool.and_assoc]

theorem inv_leaf_reads (P : Platform) (mem : Mem) :
    ∀ (fuel leaf : Nat) (ev : List Event), inv_leaf P mem fuel leaf = some ev →
      (∀ seen, invBeforeRead P.sizeof_iobuf seen ev = true)
      ∧ (leaf ≠ 0 → (leaf, P.sizeof_iobuf) ∈ invRegions ev) := by
  intro fuel
  induction fuel with
  | zero =>
    intro leaf ev h
    by_cases h0 : leaf = 0
    · simp [inv_leaf, h0] at h; subst h
      exact ⟨fun _ => rfl, fun hne => absurd h0 hne⟩
    · simp [inv_leaf, h0] at h
  | succ f ih =>
    intro leaf ev h
    by_cases h0 : leaf = 0
    · simp [inv_leaf, h0] at h; subst h
      exact ⟨fun _ => rfl, fun hne => absurd h0 hne⟩
    · simp only [inv_leaf, h0, if_false, Option.map_eq_some'] at h
      obtain ⟨r, hr, hev⟩ := h
      obtain ⟨hrec, _⟩ := ih _ r hr
      subst hev
      refine ⟨?_, ?_⟩
      · intro seen
        by_cases hl : (mem leaf).length = 0 <;> by_cases hs : (mem leaf).sg_next = 0 <;>
          simp [hl, hs, invBeforeRead, hrec]
      · intro _
        simp [invRegions]

theorem inv_iob_list_reads (P : Platform) (mem : Mem) :
    ∀ (fuel iob : Nat) (ev : List Event), inv_iob_list P mem fuel iob = some ev →
      ∀ seen, invBeforeRead P.sizeof_iobuf seen ev = true := by
  intro fuel
  induction fuel with
  | zero =>
    intro iob ev h
    by_cases h0 : iob = 0
    · simp [inv_iob_list, h0] at h; subst h; intro _; rfl
    · simp [inv_iob_list, h0] at h
  | succ f ih =>
    intro iob ev h
    by_cases h0 : iob = 0
    · simp [inv_iob_list, h0] at h; subst h; intro _; rfl
    · simp only [inv_iob_list, h0, if_false] at h
      cases hlv : inv_leaf P mem f iob with
      | none => simp [hlv] at h
      | some lv =>
        simp only [hlv, Option.map_eq_some'] at h
        obtain ⟨r, hr, hev⟩ := h
        have hrec := ih _ r hr
        obtain ⟨hleaf, hmem⟩ := inv_leaf_reads P mem f iob lv hlv
        have hin := hmem h0
        subst hev
        intro seen
        rw [List.append_assoc, invBeforeRead_append, hleaf seen, Bool.true_and]
        by_cases hs : (mem iob).next = 0 <;> simp [hs, invBeforeRead, hrec, hin]

/-- C16: invalidate before read in `nvshm_queue_get`.  On an initialized queue,
whenever the call returns, the events it adds start with the invalidate of the
guard's record, and every read of a descriptor field (the guard's queue link,
the fields of each node of the item's chain, the guard's channel) comes after an
invalidate of that node's own record.  When the guard has a queue link, the
advance of the head pointer splits the events in two: all invalidates come
before it and none after, and for a finite chain of the item that the fuel
covers they are the guard's record followed by the record of each node of the
chain and its payload when the length is not zero.  Such a call does return. -/
theorem nvshm_queue_get_inv_before_read (P : Platform) (fuel : Nat) (s : State)
    (hh : s.handle.shared_queue_head ≠ 0) :
    (∀ r s', nvshm_queue_get P fuel s = some (r, s') →
        ∃ ev, s'.trace = s.trace ++ ev
          ∧ ev.head? = some (Event.inv s.handle.shared_queue_head P.sizeof_iobuf)
          ∧ invBeforeRead P.sizeof_iobuf [] ev = true
          ∧ ((s.mem s.handle.shared_queue_head).qnext ≠ 0 →
              ∃ pre post, ev = pre ++ Event.set_head r :: post
                ∧ invRegions post = []
                ∧ (∀ L, itemChain P s.mem r L = true → chainFuel L ≤ fuel →
                    invRegions pre
                      = (s.handle.shared_queue_head, P.sizeof_iobuf)
                          :: L.flatten.flatMap (nodeRegions P s.mem))))
    ∧ ((s.mem s.handle.shared_queue_head).qnext ≠ 0 →
        ∀ L, itemChain P s.mem (P.B2A (s.mem s.handle.shared_queue_head).qnext) L = true →
          chainFuel L ≤ fuel →
          ∃ s', nvshm_queue_get P fuel s
            = some (P.B2A (s.mem s.handle.shared_queue_head).qnext, s')) := by
  refine ⟨?_, ?_⟩
  · intro r s' h
    by_cases hq : (s.mem s.handle.shared_queue_head).qnext = 0
    · rw [get_of_null_link P fuel s hh hq] at h
      simp only [Option.some.injEq, Prod.mk.injEq] at h
      obtain ⟨_, hs⟩ := h
      subst hs
      exact ⟨_, rfl, rfl, by simp [invBeforeRead], fun h1 => absurd hq h1⟩
    · rw [get_of_link P fuel s hh hq] at h
      simp only [Option.map_eq_some', Prod.mk.injEq] at h
      obtain ⟨inv_ev, hi, hret, hs⟩ := h
      have hreads := inv_iob_list_reads P s.mem fuel _ inv_ev hi
      subst hs
      subst hret
      refine ⟨getEvents P s inv_ev, rfl, by simp [getEvents], ?_, fun _ => ?_⟩
      · unfold getEvents
        by_cases hc : debugOffset s (P.B2A (s.mem s.handle.shared_queue_head).qnext) < 0
            ∨ debugOffset s (P.B2A (s.mem s.handle.shared_queue_head).qnext)
                > s.handle.conf.shmem_size
        · simp [hc, invBeforeRead_append, invBeforeRead, invRegions, hreads]
        · simp [hc, invBeforeRead_append, invBeforeRead, invRegions, hreads]
      · refine ⟨[Event.inv s.handle.shared_queue_head P.sizeof_iobuf,
            Event.read s.handle.shared_queue_head Field.qnext,
            Event.read s.handle.shared_queue_head Field.qnext]
            ++ inv_ev ++ [Event.write_qnext s.handle.shared_queue_head 0],
          [Event.set_offset (debugOffset s (P.B2A (s.mem s.handle.shared_queue_head).qnext))]
            ++ (if debugOffset s (P.B2A (s.mem s.handle.shared_queue_head).qnext) < 0
                  ∨ debugOffset s (P.B2A (s.mem s.handle.shared_queue_head).qnext)
                      > s.handle.conf.shmem_size
                then [Event.pr_err ErrMsg.out_of_bound] else [])
            ++ [Event.read s.handle.shared_queue_head Field.chan,
                Event.free_cluster (s.mem s.handle.shared_queue_head).chan
                  s.handle.shared_queue_head], ?_, ?_, ?_⟩
        rotate_left
        · simp only [invRegions_append]
          split <;> simp [invRegions]
        · intro L hc hf
          obtain ⟨ev', hev', hreg⟩ := inv_iob_list_chain P s.mem L _ fuel hc hf
          rw [hi] at hev'
          simp only [Option.some.injEq] at hev'
          subst hev'
          simp [invRegions_append, invRegions, hreg]
        · simp [getEvents, List.append_assoc]
  · intro hq L hc hf
    obtain ⟨ev, hev, _⟩ := inv_iob_list_chain P s.mem L _ fuel hc hf
    rw [get_of_link P fuel s hh hq, hev]
    exact ⟨_, rfl⟩

/-- Witness for C16: the get on the sample queue with one pending buffer returns
and its events pass the invalidate-before-read check. -/
theorem nvshm_queue_get_inv_before_read_witness :
    ∃ s' ev, nvshm_queue_get demoPlatform 2 demoOne = some (4192, s')
      ∧ s'.trace = demoOne.trace ++ ev
      ∧ invBeforeRead demoPlatform.sizeof_iobuf [] ev = true := by
  obtain ⟨ev, h1, _, h3, _⟩ :=
    (nvshm_queue_get_inv_before_read demoPlatform 2 demoOne (by decide)).1 4192 _ rfl
  exact ⟨_, ev, rfl, h1, h3⟩

/-! ## nvshm_process_queue -/

theorem get_trace (P : Platform) (fuel : Nat) (s : State) (r : Nat) (s' : State)
    (h : nvshm_queue_get P fuel s = some (r, s')) :
    s'.handle.chan_ops = s.handle.chan_ops
    ∧ (∀ n, (s'.mem n).chan = (s.mem n).chan ∧ (s'.mem n).pool_id = (s.mem n).pool_id)
    ∧ ∃ ev, s'.trace = s.trace ++ ev
        ∧ (∀ e ∈ ev, e.isGetEvent = true)
        ∧ (ev.filter Event.isFree).all Event.isFree = true
        ∧ (ev.filter Event.isFree).length ≤ 1 := by
  by_cases hh : s.handle.shared_queue_head = 0
  · rw [get_of_null_head P fuel s hh] at h
    simp only [Option.some.injEq, Prod.mk.injEq] at h
    obtain ⟨_, hs⟩ := h
    subst hs
    exact ⟨rfl, fun _ => ⟨rfl, rfl⟩, _, rfl, by simp [Event.isGetEvent], by simp [Event.isFree],
      by simp [Event.isFree]⟩
  · by_cases hq : (s.mem s.handle.shared_queue_head).qnext = 0
    · rw [get_of_null_link P fuel s hh hq] at h
      simp only [Option.some.injEq, Prod.mk.injEq] at h
      obtain ⟨_, hs⟩ := h
      subst hs
      exact ⟨rfl, fun _ => ⟨rfl, rfl⟩, _, rfl, by simp [Event.isGetEvent],
        by simp [Event.isFree], by simp [Event.isFree]⟩
    · rw [get_of_link P fuel s hh hq] at h
      simp only [Option.map_eq_some', Prod.mk.injEq] at h
      obtain ⟨inv_ev, hi, _, hs⟩ := h
      have hk := inv_iob_list_kinds P s.mem fuel _ inv_ev hi
      obtain ⟨hfree, _⟩ := getEvents_filters P s fuel _ inv_ev hi
      subst hs
      refine ⟨rfl, ?_, getEvents P s inv_ev, rfl, ?_, ?_, ?_⟩
      · intro n
        by_cases hn : n = s.handle.shared_queue_head <;> simp [setQnext, hn]
      · intro e he
        unfold getEvents at he
        simp only [List.mem_append] at he
        rcases he with (((he | he) | he) | he) | he
        · simp only [List.mem_cons, List.mem_singleton, List.not_mem_nil, or_false] at he
          rcases he with rfl | rfl | rfl <;> rfl
        · rcases hk e he with hk' | hk' <;> cases e <;>
            simp [Event.isInv, Event.isRead] at hk' <;> rfl
        · simp only [List.mem_cons, List.mem_singleton, List.not_mem_nil, or_false] at he
          rcases he with rfl | rfl | rfl <;> rfl
        · split at he
          · simp only [List.mem_singleton] at he
            subst he
            rfl
          · simp at he
        · simp only [List.mem_cons, List.mem_singleton, List.not_mem_nil, or_false] at he
          rcases he with rfl | rfl <;> rfl
      · rw [hfree]; rfl
      · rw [hfree]; simp

theorem filter_isDrain_of_get (ev : List Event) (h : ∀ e ∈ ev, e.isGetEvent = true) :
    ev.filter Event.isDrain = ev.filter Event.isFree := by
  apply List.filter_congr
  intro e he
  have := h e he
  cases e <;> simp [Event.isGetEvent] at this <;> rfl

theorem dispatchOf_congr (P : Platform) (ops ops' : Int → Bool) (mem mem' : Mem)
    (hops : ops' = ops)
    (hm : ∀ n, (mem' n).chan = (mem n).chan ∧ (mem' n).pool_id = (mem n).pool_id) :
    drainSegments P ops' mem' = drainSegments P ops mem
    ∧ ∀ x, afterGet P ops' mem' x = afterGet P ops mem x := by
  subst hops
  have h1 : ∀ x, afterGet P ops' mem' x = afterGet P ops' mem x := by
    intro x
    simp [afterGet, dispatchOf, (hm x).1, (hm x).2]
  refine ⟨?_, h1⟩
  funext segs
  induction segs with
  | nil => rfl
  | cons a rest ih =>
    obtain ⟨F, x⟩ := a
    simp only [drainSegments, h1, ih]

theorem dispatchOf_filter (P : Platform) (ops : Int → Bool) (mem : Mem) (x : Nat) :
    (dispatchOf P ops mem x).filter Event.isDrain = dispatchOf P ops mem x := by
  unfold dispatchOf
  split
  · split <;> rfl
  · rfl

theorem process_loop_null (P : Platform) (gf fuel : Nat) (s : State) :
    process_loop P gf fuel s 0 = some { s with trace := s.trace ++ [Event.unlock] } := by
  cases fuel <;> simp [process_loop]

theorem process_loop_zero (P : Platform) (gf : Nat) (s : State) (iob : Nat) (h0 : iob ≠ 0) :
    process_loop P gf 0 s iob = none := by
  simp [process_loop, h0]

theorem process_loop_succ (P : Platform) (gf fuel : Nat) (s : State) (iob : Nat)
    (h0 : iob ≠ 0) :
    process_loop P gf (fuel + 1) s iob
      = (nvshm_queue_get P gf
          { s with trace := s.trace
              ++ [Event.read iob Field.chan, Event.read iob Field.pool_id]
              ++ dispatchOf P s.handle.chan_ops s.mem iob ++ [Event.get_call] }).bind
          (fun r => process_loop P gf fuel
            { r.2 with trace := r.2.trace ++ [Event.get_ret r.1] } r.1) := by
  simp only [process_loop, h0, if_false]
  unfold dispatchOf
  cases nvshm_queue_get P gf _ <;> rfl

theorem process_loop_shape (P : Platform) (gf : Nat) :
    ∀ (fuel : Nat) (s : State) (iob : Nat) (s' : State),
      process_loop P gf fuel s iob = some s' →
      ∃ ev segs, s'.trace = s.trace ++ ev
        ∧ ev.filter Event.isDrain
            = afterGet P s.handle.chan_ops s.mem iob
              ++ drainSegments P s.handle.chan_ops s.mem segs
        ∧ segsOk iob segs = true := by
  intro fuel
  induction fuel with
  | zero =>
    intro s iob s' h
    by_cases h0 : iob = 0
    · subst h0
      rw [process_loop_null] at h
      simp only [Option.some.injEq] at h
      subst h
      exact ⟨[Event.unlock], [], rfl, rfl, rfl⟩
    · rw [process_loop_zero P gf s iob h0] at h
      simp at h
  | succ f ih =>
    intro s iob s' h
    by_cases h0 : iob = 0
    · subst h0
      rw [process_loop_null] at h
      simp only [Option.some.injEq] at h
      subst h
      exact ⟨[Event.unlock], [], rfl, rfl, rfl⟩
    · rw [process_loop_succ P gf f s iob h0] at h
      simp only [Option.bind_eq_some] at h
      obtain ⟨⟨nxt, s2⟩, hget, hloop⟩ := h
      obtain ⟨hops, hmem, gev, htr, hkind, hfa, hfl⟩ := get_trace P gf _ nxt s2 hget
      obtain ⟨ev2, segs2, htr2, hfilt2, hok2⟩ := ih _ nxt s' hloop
      simp only at htr hops hmem htr2 hfilt2
      obtain ⟨hseg, haft⟩ := dispatchOf_congr P s.handle.chan_ops s2.handle.chan_ops s.mem s2.mem
        hops hmem
      refine ⟨[Event.read iob Field.chan, Event.read iob Field.pool_id]
          ++ dispatchOf P s.handle.chan_ops s.mem iob ++ [Event.get_call] ++ gev
          ++ [Event.get_ret nxt] ++ ev2,
        (gev.filter Event.isFree, nxt) :: segs2, ?_, ?_, ?_⟩
      · rw [htr2, htr]
        simp only [List.append_assoc]
      · have hiob : afterGet P s.handle.chan_ops s.mem iob
            = dispatchOf P s.handle.chan_ops s.mem iob := by
          simp [afterGet, h0]
        simp only [List.filter_append, hfilt2, dispatchOf_filter,
          filter_isDrain_of_get gev hkind, hseg, haft, drainSegments, hiob]
        simp [List.filter, Event.isDrain]
      · simp only [segsOk, Bool.and_eq_true, decide_eq_true_eq]
        exact ⟨⟨⟨h0, hfa⟩, hfl⟩, hok2⟩

theorem process_queue_shape (P : Platform) (gf fuel : Nat) (s s' : State)
    (h : nvshm_process_queue P gf fuel s = some s') :
    ∃ ev F x segs, s'.trace = s.trace ++ ev
      ∧ ev.filter Event.isDrain
          = Event.lock :: drainSegments P s.handle.chan_ops s.mem ((F, x) :: segs)
      ∧ F.all Event.isFree = true ∧ F.length ≤ 1
      ∧ segsOk x segs = true := by
  unfold nvshm_process_queue at h
  cases hget : nvshm_queue_get P gf { s with trace := s.trace ++ [Event.lock, Event.get_call] } with
  | none => simp [hget] at h
  | some r =>
    obtain ⟨iob, s1⟩ := r
    simp only [hget] at h
    obtain ⟨hops, hmem, gev, htr, hkind, hfa, hfl⟩ := get_trace P gf _ iob s1 hget
    obtain ⟨ev2, segs2, htr2, hfilt2, hok2⟩ := process_loop_shape P gf fuel _ iob s' h
    simp only at htr hops hmem htr2 hfilt2
    obtain ⟨hseg, haft⟩ := dispatchOf_congr P s.handle.chan_ops s1.handle.chan_ops s.mem s1.mem
      hops hmem
    refine ⟨[Event.lock, Event.get_call] ++ gev ++ [Event.get_ret iob] ++ ev2,
      gev.filter Event.isFree, iob, segs2, ?_, ?_, hfa, hfl, hok2⟩
    · rw [htr2, htr]
      simp only [List.append_assoc]
    · simp only [List.filter_append, hfilt2, filter_isDrain_of_get gev hkind, hseg, haft,
        drainSegments]
      simp [List.filter, Event.isDrain]

theorem filter_get_marks_of_get (ev : List Event) (h : ∀ e ∈ ev, e.isGetEvent = true) :
    ev.filter Event.isGetRet = [] ∧ ev.filter Event.isGetCall = [] := by
  constructor <;>
    (rw [List.filter_eq_nil_iff]
     intro e he
     have := h e he
     cases e <;> simp [Event.isGetEvent] at this <;> simp [Event.isGetRet, Event.isGetCall])

theorem dispatchOf_no_get_marks (P : Platform) (ops : Int → Bool) (mem : Mem) (x : Nat) :
    (dispatchOf P ops mem x).filter Event.isGetRet = []
    ∧ (dispatchOf P ops mem x).filter Event.isGetCall = [] := by
  unfold dispatchOf
  split
  · split <;> exact ⟨rfl, rfl⟩
  · exact ⟨rfl, rfl⟩

theorem get_head_of_link (P : Platform) (fuel : Nat) (s : State) (r : Nat) (s' : State)
    (hh : s.handle.shared_queue_head ≠ 0)
    (hq : (s.mem s.handle.shared_queue_head).qnext ≠ 0)
    (h : nvshm_queue_get P fuel s = some (r, s')) :
    s'.handle.shared_queue_head = r := by
  rw [get_of_link P fuel s hh hq] at h
  simp only [Option.map_eq_some', Prod.mk.injEq] at h
  obtain ⟨_, _, hret, hs⟩ := h
  subst hs
  exact hret

theorem process_loop_wf (P : Platform) (gf : Nat) :
    ∀ (pend : List Nat) (s : State) (fuel : Nat), wfQueue P s pend →
      (∀ x ∈ pend, ∃ L, itemChain P s.mem x L = true ∧ chainFuel L ≤ gf) →
      pend.length + 1 ≤ fuel →
      ∃ s', process_loop P gf fuel s s.handle.shared_queue_head = some s'
        ∧ wfQueue P s' []
        ∧ ∃ ev, s'.trace = s.trace ++ ev
          ∧ ev.filter Event.isGetRet = pend.map Event.get_ret ++ [Event.get_ret 0]
          ∧ ev.filter Event.isGetCall = List.replicate (pend.length + 1) Event.get_call := by
  intro pend
  induction pend with
  | nil =>
    intro s fuel hwf _ hf
    have hwf0 := hwf
    obtain ⟨hq, hnd, hnz⟩ := hwf
    have hh : s.handle.shared_queue_head ≠ 0 := hnz _ (by simp)
    simp [qchain] at hq
    obtain ⟨f, rfl⟩ : ∃ f, fuel = f + 1 := ⟨fuel - 1, by simp at hf; omega⟩
    obtain ⟨hd1, hd2⟩ := dispatchOf_no_get_marks P s.handle.chan_ops s.mem
      s.handle.shared_queue_head
    have hnl := get_of_null_link P gf
        { s with trace := s.trace
            ++ [Event.read s.handle.shared_queue_head Field.chan,
                Event.read s.handle.shared_queue_head Field.pool_id]
            ++ dispatchOf P s.handle.chan_ops s.mem s.handle.shared_queue_head
            ++ [Event.get_call] } hh hq.2
    rw [process_loop_succ P gf f s _ hh, hnl]
    simp only [Option.some_bind, process_loop_null]
    refine ⟨_, rfl, hwf0, _, by simp only [List.append_assoc]; rfl,
      ?_, ?_⟩
    · simp only [List.filter_append, hd1]
      simp [List.filter, Event.isGetRet]
    · simp only [List.filter_append, hd2]
      simp [List.filter, Event.isGetCall]
  | cons x xs ih =>
    intro s fuel hwf hch hf
    have hh : s.handle.shared_queue_head ≠ 0 := hwf.2.2 _ (by simp)
    have hq : (s.mem s.handle.shared_queue_head).qnext ≠ 0 := by
      have := hwf.1
      simp [qchain] at this
      exact this.1.1
    obtain ⟨f, rfl⟩ : ∃ f, fuel = f + 1 := ⟨fuel - 1, by simp at hf; omega⟩
    obtain ⟨L, hc, hcf⟩ := hch x (by simp)
    obtain ⟨hd1, hd2⟩ := dispatchOf_no_get_marks P s.handle.chan_ops s.mem
      s.handle.shared_queue_head
    have hwf1 : wfQueue P
        { s with trace := s.trace
            ++ [Event.read s.handle.shared_queue_head Field.chan,
                Event.read s.handle.shared_queue_head Field.pool_id]
            ++ dispatchOf P s.handle.chan_ops s.mem s.handle.shared_queue_head
            ++ [Event.get_call] } (x :: xs) := hwf
    obtain ⟨s2, hget, hwf2, hmem2, _, _⟩ := wfQueue_get P gf _ x xs L hwf1 hc hcf
    obtain ⟨_, _, gev, htr, hkind, _, _⟩ := get_trace P gf _ x s2 hget
    obtain ⟨hg1, hg2⟩ := filter_get_marks_of_get gev hkind
    have hhead2 : s2.handle.shared_queue_head = x := get_head_of_link P gf
        { s with trace := s.trace
            ++ [Event.read s.handle.shared_queue_head Field.chan,
                Event.read s.handle.shared_queue_head Field.pool_id]
            ++ dispatchOf P s.handle.chan_ops s.mem s.handle.shared_queue_head
            ++ [Event.get_call] } x s2 hh hq hget
    have hwf2' : wfQueue P { s2 with trace := s2.trace ++ [Event.get_ret x] } xs := hwf2
    obtain ⟨s', hloop, hwf', ev2, htr2, hr2, hc2⟩ := ih _ f hwf2' (by
        intro y hy
        obtain ⟨Ly, hyc, hyf⟩ := hch y (List.mem_cons_of_mem _ hy)
        refine ⟨Ly, ?_, hyf⟩
        show itemChain P s2.mem y Ly = true
        rw [hmem2, itemChain_setQnext]
        exact hyc) (by simp at hf ⊢; omega)
    simp only [hhead2] at hloop
    rw [process_loop_succ P gf f s _ hh, hget]
    simp only [Option.some_bind]
    refine ⟨s', hloop, hwf', [Event.read s.handle.shared_queue_head Field.chan,
          Event.read s.handle.shared_queue_head Field.pool_id]
          ++ dispatchOf P s.handle.chan_ops s.mem s.handle.shared_queue_head
          ++ [Event.get_call] ++ gev ++ [Event.get_ret x] ++ ev2, ?_, ?_, ?_⟩
    · rw [htr2]
      simp only at htr
      simp only [htr, List.append_assoc]
    · simp only [List.filter_append, hd1, hg1, hr2]
      simp [List.filter, Event.isGetRet]
    · simp only [List.filter_append, hd2, hg2, hc2]
      simp [List.filter, Event.isGetCall, List.replicate_succ]

theorem process_queue_wf (P : Platform) (gf fuel : Nat) (s : State) (pend : List Nat)
    (hwf : wfQueue P s pend)
    (hch : ∀ x ∈ pend, ∃ L, itemChain P s.mem x L = true ∧ chainFuel L ≤ gf)
    (hf : pend.length ≤ fuel) :
    ∃ s', nvshm_process_queue P gf fuel s = some s'
      ∧ wfQueue P s' []
      ∧ ∃ ev, s'.trace = s.trace ++ ev
        ∧ ev.filter Event.isGetRet = pend.map Event.get_ret ++ [Event.get_ret 0]
        ∧ ev.filter Event.isGetCall = List.replicate (pend.length + 1) Event.get_call := by
  have hh : s.handle.shared_queue_head ≠ 0 := hwf.2.2 _ (by simp)
  unfold nvshm_process_queue
  cases pend with
  | nil =>
    have hwf0 := hwf
    obtain ⟨hq, hnd, hnz⟩ := hwf
    simp [qchain] at hq
    have hnl := get_of_null_link P gf { s with trace := s.trace ++ [Event.lock, Event.get_call] } hh hq.2
    rw [hnl]
    simp only [process_loop_null]
    refine ⟨_, rfl, hwf0, _, by simp only [List.append_assoc]; rfl,
      ?_, ?_⟩
    · simp [List.filter, Event.isGetRet]
    · simp [List.filter, Event.isGetCall]
  | cons x xs =>
    have hq : (s.mem s.handle.shared_queue_head).qnext ≠ 0 := by
      have := hwf.1
      simp [qchain] at this
      exact this.1.1
    obtain ⟨L, hc, hcf⟩ := hch x (by simp)
    have hwf1 : wfQueue P { s with trace := s.trace ++ [Event.lock, Event.get_call] }
        (x :: xs) := hwf
    obtain ⟨s2, hget, hwf2, hmem2, _, _⟩ := wfQueue_get P gf _ x xs L hwf1 hc hcf
    obtain ⟨_, _, gev, htr, hkind, _, _⟩ := get_trace P gf _ x s2 hget
    obtain ⟨hg1, hg2⟩ := filter_get_marks_of_get gev hkind
    have hhead2 : s2.handle.shared_queue_head = x := get_head_of_link P gf
        { s with trace := s.trace ++ [Event.lock, Event.get_call] } x s2 hh hq hget
    have hwf2' : wfQueue P { s2 with trace := s2.trace ++ [Event.get_ret x] } xs := hwf2
    obtain ⟨s', hloop, hwf', ev2, htr2, hr2, hc2⟩ := process_loop_wf P gf xs _ fuel hwf2' (by
        intro y hy
        obtain ⟨Ly, hyc, hyf⟩ := hch y (List.mem_cons_of_mem _ hy)
        refine ⟨Ly, ?_, hyf⟩
        show itemChain P s2.mem y Ly = true
        rw [hmem2, itemChain_setQnext]
        exact hyc) (by simpa using hf)
    simp only [hhead2] at hloop
    rw [hget]
    refine ⟨s', hloop, hwf', [Event.lock, Event.get_call] ++ gev ++ [Event.get_ret x] ++ ev2,
      ?_, ?_, ?_⟩
    · rw [htr2]
      simp only at htr
      simp only [htr, List.append_assoc]
    · simp only [List.filter_append, hg1, hr2]
      simp [List.filter, Event.isGetRet]
    · simp only [List.filter_append, hg2, hc2]
      simp [List.filter, Event.isGetCall, List.replicate_succ]

theorem lockRun_filter (ev : List Event) :
    ∀ held, lockRun held (ev.filter Event.isDrain) = lockRun held ev := by
  induction ev with
  | nil => intro _; rfl
  | cons e rest ih =>
    intro held
    cases e <;> simp [List.filter, Event.isDrain, lockRun, ih]

theorem lockRun_frees (F rest : List Event) (hF : F.all Event.isFree = true) :
    ∀ held, lockRun held (F ++ rest) = lockRun held rest := by
  induction F with
  | nil => intro _; rfl
  | cons e t ih =>
    intro held
    simp only [List.all_cons, Bool.and_eq_true] at hF
    obtain ⟨he, ht⟩ := hF
    cases e <;> simp [Event.isFree] at he
    simp [lockRun, ih ht]

theorem drainSegments_cons (P : Platform) (ops : Int → Bool) (mem : Mem) (F : List Event)
    (x : Nat) (rest : List (List Event × Nat)) :
    drainSegments P ops mem ((F, x) :: rest)
      = Event.get_call
          :: (F ++ Event.get_ret x :: (afterGet P ops mem x ++ drainSegments P ops mem rest)) := by
  simp [drainSegments]

theorem lockRun_round (F rest : List Event) (x : Nat) (hF : F.all Event.isFree = true) :
    lockRun true (Event.get_call :: (F ++ Event.get_ret x :: rest)) = lockRun true rest := by
  have h1 : lockRun true (Event.get_call :: (F ++ Event.get_ret x :: rest))
      = lockRun true (F ++ Event.get_ret x :: rest) := by
    simp [lockRun]
  rw [h1, lockRun_frees F _ hF]
  rfl

theorem lockRun_segments (P : Platform) (ops : Int → Bool) (mem : Mem)
    (segs : List (List Event × Nat)) :
    ∀ x, segsOk x segs = true →
      lockRun true (afterGet P ops mem x ++ drainSegments P ops mem segs) = some false := by
  induction segs with
  | nil =>
    intro x hx
    simp [segsOk] at hx
    subst hx
    simp [afterGet, drainSegments, lockRun]
  | cons a rest ih =>
    intro x hx
    obtain ⟨F, y⟩ := a
    simp only [segsOk, Bool.and_eq_true, decide_eq_true_eq] at hx
    obtain ⟨⟨⟨hx0, hF⟩, _⟩, hrest⟩ := hx
    have hrec := ih y hrest
    have htail : lockRun true (drainSegments P ops mem ((F, y) :: rest)) = some false := by
      rw [drainSegments_cons, lockRun_round F _ y hF]
      exact hrec
    simp only [afterGet, hx0, if_false, dispatchOf]
    split
    · split
      · simpa [lockRun] using htail
      · simpa [lockRun] using htail
    · simpa using htail

/-- C17: the lock discipline of `nvshm_process_queue`.  With the lock as a flag
that is free on entry, run over the events any returning drain adds: every call
of `nvshm_queue_get` is made with the lock held, every `rx_event` callback with
the lock free, the lock is never acquired while held nor released while free,
and it is free at the end.  On a well-formed queue whose items head finite
chains the drain does return once the fuel covers the pending items. -/
theorem nvshm_process_queue_lock_discipline (P : Platform) (gf fuel : Nat) (s : State) :
    (∀ s', nvshm_process_queue P gf fuel s = some s' →
        ∃ ev, s'.trace = s.trace ++ ev ∧ lockRun false ev = some false)
    ∧ (∀ pend, wfQueue P s pend →
        (∀ x ∈ pend, ∃ L, itemChain P s.mem x L = true ∧ chainFuel L ≤ gf) →
        pend.length ≤ fuel →
        ∃ s', nvshm_process_queue P gf fuel s = some s') := by
  refine ⟨?_, ?_⟩
  · intro s' h
    obtain ⟨ev, F, x, segs, htr, hfilt, hF, _, hok⟩ := process_queue_shape P gf fuel s s' h
    refine ⟨ev, htr, ?_⟩
    rw [← lockRun_filter, hfilt, drainSegments_cons]
    have h1 : ∀ l, lockRun false (Event.lock :: l) = lockRun true l := by
      intro l
      simp [lockRun]
    rw [h1, lockRun_round F _ x hF]
    exact lockRun_segments P s.handle.chan_ops s.mem segs x hok
  · intro pend hwf hch hf
    obtain ⟨s', hs', _⟩ := process_queue_wf P gf fuel s pend hwf hch hf
    exact ⟨s', hs'⟩

/-- Witness for C17: the drain of the sample queue with two pending buffers and
registered channels returns, and its events pass the lock check. -/
theorem nvshm_process_queue_lock_discipline_witness :
    ∃ s' ev, nvshm_process_queue demoPlatform 2 2 demoTwoOps = some s'
      ∧ s'.trace = demoTwoOps.trace ++ ev ∧ lockRun false ev = some false := by
  obtain ⟨ev, h1, h2⟩ :=
    (nvshm_process_queue_lock_discipline demoPlatform 2 2 demoTwoOps).1 _ rfl
  exact ⟨_, ev, rfl, h1, h2⟩

/-- C11, as amended: the routing of the drain.  The observed events of any
returning `nvshm_process_queue` are the acquire of the lock followed by rounds,
one for each call of `nvshm_queue_get`: the call, the at most one call of
`nvshm_iobuf_free_cluster` that get itself makes (on its old guard), the pointer
returned, and then the dispatch step for that pointer.  For an item whose pool
is below `NVSHM_AP_POOL_ID` and whose channel has an ops table the dispatch step
is exactly: release the lock, `rx_event` on the channel and the item, acquire the
lock, with no free; for such an item whose channel has no ops table it is
exactly one `nvshm_iobuf_free_cluster` on the channel and the item, with no
callback; for an item of another pool it is empty; for the null pointer it is
the release of the lock, which ends the drain.  The rounds are in dequeue order.
On a well-formed queue whose items head finite chains the drain does return. -/
theorem nvshm_process_queue_dispatch (P : Platform) (gf fuel : Nat) (s : State) :
    (∀ s', nvshm_process_queue P gf fuel s = some s' →
        ∃ ev F x segs, s'.trace = s.trace ++ ev
          ∧ ev.filter Event.isDrain
              = Event.lock :: drainSegments P s.handle.chan_ops s.mem ((F, x) :: segs)
          ∧ F.all Event.isFree = true ∧ F.length ≤ 1
          ∧ segsOk x segs = true)
    ∧ (∀ y, y ≠ 0 →
        ((s.mem y).pool_id < P.AP_POOL_ID → s.handle.chan_ops (s.mem y).chan = true →
          afterGet P s.handle.chan_ops s.mem y
            = [Event.unlock, Event.rx_event (s.mem y).chan y, Event.lock])
        ∧ ((s.mem y).pool_id < P.AP_POOL_ID → s.handle.chan_ops (s.mem y).chan = false →
          afterGet P s.handle.chan_ops s.mem y = [Event.free_cluster (s.mem y).chan y])
        ∧ (P.AP_POOL_ID ≤ (s.mem y).pool_id →
          afterGet P s.handle.chan_ops s.mem y = []))
    ∧ afterGet P s.handle.chan_ops s.mem 0 = [Event.unlock]
    ∧ (∀ pend, wfQueue P s pend →
        (∀ x ∈ pend, ∃ L, itemChain P s.mem x L = true ∧ chainFuel L ≤ gf) →
        pend.length ≤ fuel →
        ∃ s', nvshm_process_queue P gf fuel s = some s') := by
  refine ⟨fun s' h => process_queue_shape P gf fuel s s' h, ?_, rfl, ?_⟩
  · intro y hy
    refine ⟨?_, ?_, ?_⟩
    · intro hp ho
      simp [afterGet, dispatchOf, hy, hp, ho]
    · intro hp ho
      simp [afterGet, dispatchOf, hy, hp, ho]
    · intro hp
      simp [afterGet, dispatchOf, hy, Nat.not_lt.mpr hp]
  · intro pend hwf hch hf
    obtain ⟨s', hs', _⟩ := process_queue_wf P gf fuel s pend hwf hch hf
    exact ⟨s', hs'⟩

/-- Witness for C11: the observed events of the drain of the sample queue with
two pending buffers and registered channels. -/
theorem nvshm_process_queue_dispatch_witness :
    ∃ s', nvshm_process_queue demoPlatform 2 2 demoTwoOps = some s'
      ∧ s'.trace.filter Event.isDrain
          = [Event.lock,
             Event.get_call, Event.free_cluster 0 4144, Event.get_ret 4192,
             Event.unlock, Event.rx_event 0 4192, Event.lock,
             Event.get_call, Event.free_cluster 0 4192, Event.get_ret 4240,
             Event.unlock, Event.rx_event 0 4240, Event.lock,
             Event.get_call, Event.get_ret 0, Event.unlock] := by
  obtain ⟨s', hs'⟩ := (nvshm_process_queue_dispatch demoPlatform 2 2 demoTwoOps).2.2.2
    [4192, 4240] ⟨by decide, by decide, by decide⟩ (by
      intro x hx
      simp only [List.mem_cons, List.mem_singleton, List.not_mem_nil, or_false] at hx
      rcases hx with rfl | rfl
      · exact ⟨[[4192]], by decide, by decide⟩
      · exact ⟨[[4240]], by decide, by decide⟩) (by decide)
  have e := Option.some.inj (hs'.symm.trans
    (rfl : nvshm_process_queue demoPlatform 2 2 demoTwoOps = some _))
  exact ⟨s', hs', by rw [e]; decide⟩

/-- Counterexample to C11 as stated: in the drain of the sample queue with two
pending buffers of pool 0 and no ops table, `nvshm_iobuf_free_cluster` is called
twice on the first item 4192, once by the dispatch step and once by the next
get; and with ops tables registered the first item is handed to `rx_event` and
is also freed, by the next get. -/
theorem nvshm_process_queue_frees_dispatched_item :
    (∃ s', nvshm_process_queue demoPlatform 2 2 demoTwo = some s'
      ∧ (demoTwo.mem 4192).pool_id < demoPlatform.AP_POOL_ID
      ∧ demoTwo.handle.chan_ops (demoTwo.mem 4192).chan = false
      ∧ Event.get_ret 4192 ∈ s'.trace
      ∧ s'.trace.count (Event.free_cluster 0 4192) = 2)
    ∧ (∃ s', nvshm_process_queue demoPlatform 2 2 demoTwoOps = some s'
      ∧ (demoTwoOps.mem 4192).pool_id < demoPlatform.AP_POOL_ID
      ∧ demoTwoOps.handle.chan_ops (demoTwoOps.mem 4192).chan = true
      ∧ Event.rx_event 0 4192 ∈ s'.trace
      ∧ Event.free_cluster 0 4192 ∈ s'.trace) :=
  ⟨⟨_, rfl, by decide, by decide, by decide, by decide⟩,
   ⟨_, rfl, by decide, by decide, by decide, by decide⟩⟩

/-- C18: termination of the drain.  On a well-formed queue with n pending items
(the queue links lead from the head through the pending items to the tail, whose
link is null; guard and items pairwise distinct and not null), when each item
heads a finite chain covered by the fuel of get and the fuel of the loop covers
the items, `nvshm_process_queue` returns after exactly n + 1 calls of
`nvshm_queue_get`, which return the pending items in order and then null, and it
leaves an empty queue: head equals tail and the head's queue link is null. -/
theorem nvshm_process_queue_terminates (P : Platform) (gf fuel : Nat) (s : State)
    (pend : List Nat) (hwf : wfQueue P s pend)
    (hch : ∀ x ∈ pend, ∃ L, itemChain P s.mem x L = true ∧ chainFuel L ≤ gf)
    (hf : pend.length ≤ fuel) :
    ∃ s', nvshm_process_queue P gf fuel s = some s'
      ∧ s'.handle.shared_queue_head = s'.handle.shared_queue_tail
      ∧ (s'.mem s'.handle.shared_queue_head).qnext = 0
      ∧ wfQueue P s' []
      ∧ ∃ ev, s'.trace = s.trace ++ ev
        ∧ ev.filter Event.isGetRet = pend.map Event.get_ret ++ [Event.get_ret 0]
        ∧ (ev.filter Event.isGetCall).length = pend.length + 1 := by
  obtain ⟨s', hs', hwf', ev, htr, hret, hcall⟩ := process_queue_wf P gf fuel s pend hwf hch hf
  have hq := hwf'.1
  simp [qchain] at hq
  exact ⟨s', hs', hq.1, hq.2, hwf', ev, htr, hret, by rw [hcall]; simp⟩

/-- Witness for C18: the drain of the sample queue with two pending buffers makes
three calls of get, which return 4192, 4240 and null. -/
theorem nvshm_process_queue_terminates_witness :
    ∃ s' ev, nvshm_process_queue demoPlatform 2 2 demoTwo = some s'
      ∧ s'.trace = demoTwo.trace ++ ev
      ∧ ev.filter Event.isGetRet
          = [Event.get_ret 4192, Event.get_ret 4240, Event.get_ret 0]
      ∧ (ev.filter Event.isGetCall).length = 3 := by
  obtain ⟨s', hs', _, _, _, ev, h1, h2, h3⟩ :=
    nvshm_process_queue_terminates demoPlatform 2 2 demoTwo [4192, 4240]
      ⟨by decide, by decide, by decide⟩ (by
        intro x hx
        simp only [List.mem_cons, List.mem_singleton, List.not_mem_nil, or_false] at hx
        rcases hx with rfl | rfl
        · exact ⟨[[4192]], by decide, by decide⟩
        · exact ⟨[[4240]], by decide, by decide⟩) (by decide)
  exact ⟨s', ev, hs', h1, h2, h3⟩

/-! ## Refinement of the abstract FIFO queue -/

theorem wfQueue_empty_iff (P : Platform) (s : State) (pend : List Nat)
    (hwf : wfQueue P s pend) :
    pend = [] ↔ s.handle.shared_queue_head = s.handle.shared_queue_tail := by
  obtain ⟨hq, hnd, _⟩ := hwf
  constructor
  · intro h
    subst h
    simp [qchain] at hq
    exact hq.1
  · intro h
    cases pend with
    | nil => rfl
    | cons y ys =>
      obtain ⟨_, _, htm⟩ := qchain_tail P s.mem _ (y :: ys) _ hq
      have : s.handle.shared_queue_tail ∈ y :: ys := htm (by simp)
      rw [← h] at this
      exact absurd this (List.nodup_cons.mp hnd).1

theorem runOps_refines (P : Platform) (fuel : Nat) :
    ∀ (ops : List QueueOp) (s : State) (pend : List Nat), wfQueue P s pend →
      (putsOf ops).Nodup →
      (∀ x ∈ putsOf ops, x ∉ s.handle.shared_queue_head :: pend ∧ x ≠ 0
          ∧ (s.mem x).qnext = 0 ∧ P.A2B x ≠ 0 ∧ P.B2A (P.A2B x) = x
          ∧ ∃ L, itemChain P s.mem x L = true ∧ chainFuel L ≤ fuel) →
      (∀ y ∈ pend, ∃ L, itemChain P s.mem y L = true ∧ chainFuel L ≤ fuel) →
      ∃ s', runOps P fuel ops s = some ((fifoRun ops pend).1, s')
        ∧ wfQueue P s' (fifoRun ops pend).2 := by
  intro ops
  induction ops with
  | nil =>
    intro s pend hwf _ _ _
    exact ⟨s, rfl, hwf⟩
  | cons op rest ih =>
    intro s pend hwf hnd hfresh hch
    cases op with
    | put x =>
      simp only [putsOf] at hnd hfresh
      obtain ⟨hnin, hx0, hxq, hA, hBA, L, hc, hcf⟩ := hfresh x (by simp)
      obtain ⟨s1, hput, hwf1, hmem1, hhead1, _⟩ :=
        wfQueue_put P fuel s pend x L hwf hnin hx0 hxq hA hBA hc hcf
      obtain ⟨_, htin, _⟩ := qchain_tail P s.mem _ pend _ hwf.1
      obtain ⟨s', hrun, hwf'⟩ := ih s1 (pend ++ [x]) hwf1 (List.nodup_cons.mp hnd).2 (by
          intro b hb
          obtain ⟨hbn, hb0, hbq, hbA, hbBA, Lb, hbc, hbf⟩ := hfresh b (List.mem_cons_of_mem _ hb)
          have hbx : b ≠ x := by
            intro e
            subst e
            exact (List.nodup_cons.mp hnd).1 hb
          have hbt : b ≠ s.handle.shared_queue_tail := fun e => hbn (e ▸ htin)
          refine ⟨?_, hb0, ?_, hbA, hbBA, Lb, ?_, hbf⟩
          · rw [hhead1, ← List.cons_append, List.mem_append]
            intro hm
            cases hm with
            | inl h => exact hbn h
            | inr h => exact hbx (by simpa using h)
          · rw [hmem1]
            simpa [setQnext, hbt] using hbq
          · rw [hmem1, itemChain_setQnext]
            exact hbc) (by
          intro y hy
          rw [hmem1]
          simp only [itemChain_setQnext]
          rw [List.mem_append] at hy
          cases hy with
          | inl h => exact hch y h
          | inr h =>
            simp only [List.mem_singleton] at h
            subst h
            exact ⟨L, hc, hcf⟩)
      exact ⟨s', by simp [runOps, hput, hrun, fifoRun], by simpa [fifoRun] using hwf'⟩
    | get =>
      simp only [putsOf] at hnd hfresh
      have hh : s.handle.shared_queue_head ≠ 0 := hwf.2.2 _ (by simp)
      cases pend with
      | nil =>
        have hq := hwf.1
        simp [qchain] at hq
        have hget := get_of_null_link P fuel s hh hq.2
        have hwf1 : wfQueue P { s with trace := s.trace
            ++ [Event.inv s.handle.shared_queue_head P.sizeof_iobuf,
                Event.read s.handle.shared_queue_head Field.qnext,
                Event.read s.handle.shared_queue_head Field.qnext] } [] := hwf
        obtain ⟨s', hrun, hwf'⟩ := ih _ [] hwf1 hnd hfresh hch
        exact ⟨s', by simp [runOps, hget, hrun, fifoRun], by simpa [fifoRun] using hwf'⟩
      | cons y ys =>
        have hq : (s.mem s.handle.shared_queue_head).qnext ≠ 0 := by
          have := hwf.1
          simp [qchain] at this
          exact this.1.1
        obtain ⟨L, hc, hcf⟩ := hch y (by simp)
        obtain ⟨s1, hget, hwf1, hmem1, _, _⟩ := wfQueue_get P fuel s y ys L hwf hc hcf
        have hhead1 : s1.handle.shared_queue_head = y := get_head_of_link P fuel s y s1 hh hq hget
        obtain ⟨s', hrun, hwf'⟩ := ih s1 ys hwf1 hnd (by
            intro b hb
            obtain ⟨hbn, hb0, hbq, hbA, hbBA, Lb, hbc, hbf⟩ := hfresh b hb
            have hbh : b ≠ s.handle.shared_queue_head := fun e => hbn (by simp [e])
            refine ⟨?_, hb0, ?_, hbA, hbBA, Lb, ?_, hbf⟩
            · rw [hhead1]
              intro hm
              exact hbn (List.mem_cons_of_mem _ hm)
            · rw [hmem1]
              simpa [setQnext, hbh] using hbq
            · rw [hmem1, itemChain_setQnext]
              exact hbc) (by
            intro z hz
            rw [hmem1]
            simp only [itemChain_setQnext]
            exact hch z (List.mem_cons_of_mem _ hz))
        exact ⟨s', by simp [runOps, hget, hrun, fifoRun], by simpa [fifoRun] using hwf'⟩

/-- C20, as amended: the queue refines an abstract FIFO list.  The abstraction of
a well-formed state is the list of its pending items: the nodes after the head
along the queue links, up to and including the tail.  In a well-formed state:
the list is empty exactly when head equals tail; a put of a fresh buffer (not
null, not on the chain, null queue link, surviving the round trip of the
translations, with a peer address that is not null, heading a finite chain
covered by the fuel) returns 0 and gives a well-formed state whose list is the
old list with the buffer appended; a get on a non-empty list returns its first
element and gives a well-formed state whose list is the rest; a get on the empty
list returns null and leaves handle and shared region unchanged; a get returns
null only on the empty list; and every sequence of such puts and gets returns
what the abstract FIFO queue returns and ends in a well-formed state whose list
is the abstract queue's. -/
theorem nvshm_queue_refines_fifo (P : Platform) (fuel : Nat) (s : State) (pend : List Nat)
    (hwf : wfQueue P s pend) :
    (pend = [] ↔ s.handle.shared_queue_head = s.handle.shared_queue_tail)
    ∧ (∀ x L, x ∉ s.handle.shared_queue_head :: pend → x ≠ 0 → (s.mem x).qnext = 0 →
        P.A2B x ≠ 0 → P.B2A (P.A2B x) = x → itemChain P s.mem x L = true →
        chainFuel L ≤ fuel →
        ∃ s', nvshm_queue_put P fuel s x = some (0, s') ∧ wfQueue P s' (pend ++ [x]))
    ∧ (∀ y ys L, pend = y :: ys → itemChain P s.mem y L = true → chainFuel L ≤ fuel →
        ∃ s', nvshm_queue_get P fuel s = some (y, s') ∧ wfQueue P s' ys)
    ∧ (pend = [] →
        ∃ s', nvshm_queue_get P fuel s = some (0, s')
          ∧ s'.handle = s.handle ∧ s'.mem = s.mem)
    ∧ (∀ s', nvshm_queue_get P fuel s = some (0, s') → pend = [])
    ∧ (∀ ops, (putsOf ops).Nodup →
        (∀ x ∈ putsOf ops, x ∉ s.handle.shared_queue_head :: pend ∧ x ≠ 0
            ∧ (s.mem x).qnext = 0 ∧ P.A2B x ≠ 0 ∧ P.B2A (P.A2B x) = x
            ∧ ∃ L, itemChain P s.mem x L = true ∧ chainFuel L ≤ fuel) →
        (∀ y ∈ pend, ∃ L, itemChain P s.mem y L = true ∧ chainFuel L ≤ fuel) →
        ∃ s', runOps P fuel ops s = some ((fifoRun ops pend).1, s')
          ∧ wfQueue P s' (fifoRun ops pend).2) := by
  have hh : s.handle.shared_queue_head ≠ 0 := hwf.2.2 _ (by simp)
  refine ⟨wfQueue_empty_iff P s pend hwf, ?_, ?_, ?_, ?_, ?_⟩
  · intro x L hnin hx0 hxq hA hBA hc hcf
    obtain ⟨s', hput, hwf', _⟩ := wfQueue_put P fuel s pend x L hwf hnin hx0 hxq hA hBA hc hcf
    exact ⟨s', hput, hwf'⟩
  · intro y ys L hp hc hcf
    subst hp
    obtain ⟨s', hget, hwf', _⟩ := wfQueue_get P fuel s y ys L hwf hc hcf
    exact ⟨s', hget, hwf'⟩
  · intro hp
    subst hp
    have hq := hwf.1
    simp [qchain] at hq
    exact ⟨_, get_of_null_link P fuel s hh hq.2, rfl, rfl⟩
  · intro s' hget
    cases pend with
    | nil => rfl
    | cons y ys =>
      have hq := hwf.1
      simp [qchain] at hq
      have hy0 : y ≠ 0 := hwf.2.2 y (by simp)
      rw [get_of_link P fuel s hh hq.1.1] at hget
      simp only [Option.map_eq_some', Prod.mk.injEq] at hget
      obtain ⟨_, _, hret, _⟩ := hget
      exact absurd (hq.1.2.symm.trans hret) hy0
  · intro ops hnd hfresh hch
    exact runOps_refines P fuel ops s pend hwf hnd hfresh hch

/-- Witness for C20: on the sample empty queue the sequence put 4192, get, get
returns what the abstract FIFO queue returns: status 0, the buffer, null. -/
theorem nvshm_queue_refines_fifo_witness :
    ∃ s', runOps demoPlatform 2 [QueueOp.put 4192, QueueOp.get, QueueOp.get] demoEmpty
        = some ([OpResult.status 0, OpResult.item 4192, OpResult.item 0], s')
      ∧ wfQueue demoPlatform s' [] :=
  (nvshm_queue_refines_fifo demoPlatform 2 demoEmpty []
      ⟨by decide, by decide, by decide⟩).2.2.2.2.2
    [QueueOp.put 4192, QueueOp.get, QueueOp.get] (by decide) (by
      intro x hx
      simp only [putsOf, List.mem_singleton] at hx
      subst hx
      exact ⟨by decide, by decide, by decide, by decide, by decide, [[4192]], by decide,
        by decide⟩) (by intro y hy; simp at hy)

/-- Counterexample to C20 as stated: with peer addresses that are plain offsets
from the local base 4096, the sample empty queue is well-formed with an empty
list, and the buffer at 4096 is fresh: not null, not on the chain, with a null
queue link, surviving the round trip.  Its put returns 0, but the state it
gives does not have the list `[4096]`, and the get that follows returns null
where the abstract FIFO queue returns 4096. -/
theorem nvshm_queue_put_breaks_abstraction :
    qchain demoOffsets demoEmpty.mem demoEmpty.handle.shared_queue_tail
        demoEmpty.handle.shared_queue_head [] = true
    ∧ (4096 ∉ [demoEmpty.handle.shared_queue_head] ∧ (demoEmpty.mem 4096).qnext = 0
        ∧ demoOffsets.B2A (demoOffsets.A2B 4096) = 4096)
    ∧ (∃ s1, nvshm_queue_put demoOffsets 2 demoEmpty 4096 = some (0, s1)
        ∧ qchain demoOffsets s1.mem s1.handle.shared_queue_tail
            s1.handle.shared_queue_head [4096] = false)
    ∧ (∃ s', runOps demoOffsets 2 [QueueOp.put 4096, QueueOp.get] demoEmpty
        = some ([OpResult.status 0, OpResult.item 0], s'))
    ∧ (fifoRun [QueueOp.put 4096, QueueOp.get] []).1
        = [OpResult.status 0, OpResult.item 4096] :=
  ⟨by decide, by decide, ⟨_, rfl, by decide⟩, ⟨_, rfl⟩, by decide⟩

/-! ## Release of the guard -/

theorem freedNodes_append (a b : List Event) :
    freedNodes (a ++ b) = freedNodes a ++ freedNodes b := by
  induction a with
  | nil => rfl
  | cons e t ih => cases e <;> simp [freedNodes, ih]

theorem freedNodes_filter (ev : List Event) :
    freedNodes (ev.filter Event.isFree) = freedNodes ev := by
  induction ev with
  | nil => rfl
  | cons e t ih => cases e <;> simp [List.filter, Event.isFree, freedNodes, ih]

theorem flush_iob_list_no_free (P : Platform) (mem : Mem) (fuel iob : Nat) (fl : List Event)
    (hfl : flush_iob_list P mem fuel iob = some fl) : freedNodes fl = [] := by
  have hnr := flush_iob_list_nonread P mem fuel iob fl hfl
  have hnil : fl.filter Event.isFree = [] := by
    rw [List.filter_eq_nil_iff]
    intro e he
    by_cases hre : e.isRead = true
    · cases e <;> simp [Event.isRead] at hre
      simp [Event.isFree]
    · have hmem : e ∈ fl.filter (fun e => !e.isRead) := by
        simp [List.mem_filter, he, hre]
      rw [hnr] at hmem
      simp only [List.mem_map] at hmem
      obtain ⟨r, _, hr⟩ := hmem
      subst hr
      simp [Event.isFree]
  rw [← freedNodes_filter, hnil]
  rfl

theorem loose_put (P : Platform) (fuel : Nat) (s : State) (pend : List Nat) (x : Nat)
    (L : List (List Nat)) (hl : looseQueue P s pend)
    (hx : x ∉ s.handle.shared_queue_head :: pend) (hxt : x ≠ s.handle.shared_queue_tail)
    (hx0 : x ≠ 0) (hxq : (s.mem x).qnext = 0) (hBA : P.B2A (P.A2B x) = x)
    (hc : itemChain P s.mem x L = true) (hf : chainFuel L ≤ fuel) :
    ∃ s' pend', nvshm_queue_put P fuel s x = some (0, s')
      ∧ looseQueue P s' pend'
      ∧ (pend' = pend ∨ pend' = pend ++ [x])
      ∧ s'.mem = setQnext s.mem s.handle.shared_queue_tail (P.A2B x)
      ∧ s'.handle.shared_queue_head = s.handle.shared_queue_head
      ∧ s'.handle.shared_queue_tail = x
      ∧ ∃ ev, s'.trace = s.trace ++ ev ∧ freedNodes ev = [] := by
  obtain ⟨⟨e, hq, hte⟩, htq, ht0, hnd, hnz⟩ := hl
  have hok : putOk s x = true := by
    simp [putOk, ht0, hx0, htq]
  obtain ⟨fl, hfl, _⟩ := flush_iob_list_chain P s.mem L x fuel hc hf
  have hnf := flush_iob_list_no_free P s.mem fuel x fl hfl
  rw [put_of_ok P fuel s x hok, hfl]
  have hxnew : (setQnext s.mem s.handle.shared_queue_tail (P.A2B x) x).qnext = 0 := by
    simpa [setQnext, hxt] using hxq
  have htrace : ∃ ev, s.trace
        ++ [Event.read s.handle.shared_queue_tail Field.qnext, Event.ref_cluster x] ++ fl
        ++ [Event.dsb, Event.write_qnext s.handle.shared_queue_tail (P.A2B x),
            Event.flush s.handle.shared_queue_tail P.sizeof_iobuf, Event.dsb,
            Event.set_tail x] = s.trace ++ ev ∧ freedNodes ev = [] :=
    ⟨[Event.read s.handle.shared_queue_tail Field.qnext, Event.ref_cluster x] ++ fl
        ++ [Event.dsb, Event.write_qnext s.handle.shared_queue_tail (P.A2B x),
            Event.flush s.handle.shared_queue_tail P.sizeof_iobuf, Event.dsb,
            Event.set_tail x], by simp only [List.append_assoc],
      by simp [freedNodes_append, hnf, freedNodes]⟩
  by_cases hlive : s.handle.shared_queue_tail = e ∧ P.A2B x ≠ 0
  · obtain ⟨hte', hA⟩ := hlive
    refine ⟨_, pend ++ [x], rfl, ⟨⟨x, ?_, Or.inl rfl⟩, hxnew, hx0, ?_, ?_⟩, Or.inr rfl,
      rfl, rfl, rfl, htrace⟩
    · show qchain P (setQnext s.mem s.handle.shared_queue_tail (P.A2B x)) x
        s.handle.shared_queue_head (pend ++ [x]) = true
      rw [hte']
      exact qchain_put P s.mem e x pend hxq hA hBA _ hq hnd hx
    · show (s.handle.shared_queue_head :: (pend ++ [x])).Nodup
      rw [← List.cons_append]
      refine List.Nodup.append hnd (List.nodup_singleton x) ?_
      intro a ha hax
      simp only [List.mem_singleton] at hax
      subst hax
      exact hx ha
    · intro n hn
      show n ≠ 0
      rw [← List.cons_append, List.mem_append] at hn
      cases hn with
      | inl h => exact hnz n h
      | inr h => simp only [List.mem_singleton] at h; subst h; exact hx0
  · refine ⟨_, pend, rfl, ⟨⟨e, ?_, Or.inr hx⟩, hxnew, hx0, hnd, hnz⟩, Or.inl rfl,
      rfl, rfl, rfl, htrace⟩
    show qchain P (setQnext s.mem s.handle.shared_queue_tail (P.A2B x)) e
      s.handle.shared_queue_head pend = true
    rw [qchain_congr P s.mem _ e pend _ ?_]
    · exact hq
    · intro n hn
      by_cases hnt : n = s.handle.shared_queue_tail
      · subst hnt
        rcases hte with hte | hte
        · have hA : P.A2B x = 0 := by
            by_contra hA
            exact hlive ⟨hte, hA⟩
          simp [setQnext, hA, htq]
        · exact absurd hn hte
      · simp [setQnext, hnt]

theorem loose_get (P : Platform) (fuel : Nat) (s : State) (y : Nat) (ys : List Nat)
    (L : List (List Nat)) (hl : looseQueue P s (y :: ys))
    (hc : itemChain P s.mem y L = true) (hf : chainFuel L ≤ fuel) :
    ∃ s', nvshm_queue_get P fuel s = some (y, s')
      ∧ looseQueue P s' ys
      ∧ s'.mem = setQnext s.mem s.handle.shared_queue_head 0
      ∧ s'.handle.shared_queue_head = y
      ∧ s'.handle.shared_queue_tail = s.handle.shared_queue_tail
      ∧ ∃ ev, s'.trace = s.trace ++ ev ∧ freedNodes ev = [s.handle.shared_queue_head] := by
  obtain ⟨⟨e, hq, hte⟩, htq, ht0, hnd, hnz⟩ := hl
  simp [qchain] at hq
  obtain ⟨⟨hlk, hlx⟩, hrest⟩ := hq
  have hh : s.handle.shared_queue_head ≠ 0 := hnz _ (by simp)
  subst hlx
  obtain ⟨ev, hev, _⟩ := inv_iob_list_chain P s.mem L _ fuel hc hf
  obtain ⟨hfree, _⟩ := getEvents_filters P s fuel _ ev hev
  rw [get_of_link P fuel s hh hlk, hev]
  refine ⟨_, rfl, ⟨⟨e, ?_, ?_⟩, ?_, ht0, (List.nodup_cons.mp hnd).2,
      fun n hn => hnz n (List.mem_cons_of_mem _ hn)⟩, rfl, rfl, rfl,
    getEvents P s ev, rfl, ?_⟩
  · show qchain P (setQnext s.mem s.handle.shared_queue_head 0) e
      (P.B2A (s.mem s.handle.shared_queue_head).qnext) ys = true
    rw [qchain_congr P s.mem _ _ ys _ ?_]
    · exact hrest
    · intro n hn
      have hne : n ≠ s.handle.shared_queue_head := by
        intro e'
        rw [List.nodup_cons] at hnd
        exact hnd.1 (e' ▸ hn)
      simp [setQnext, hne]
  · rcases hte with hte | hte
    · exact Or.inl hte
    · exact Or.inr (fun hm => hte (List.mem_cons_of_mem _ hm))
  · show (setQnext s.mem s.handle.shared_queue_head 0 s.handle.shared_queue_tail).qnext = 0
    by_cases hth : s.handle.shared_queue_tail = s.handle.shared_queue_head
    · simp [setQnext, hth]
    · simpa [setQnext, hth] using htq
  · rw [← freedNodes_filter, hfree]
    rfl

theorem loose_run (P : Platform) (fuel : Nat) :
    ∀ (ops : List QueueOp) (s : State) (pend : List Nat), looseQueue P s pend →
      (putsOf ops).Nodup →
      (∀ x ∈ putsOf ops, x ∉ s.handle.shared_queue_head :: pend
          ∧ x ≠ s.handle.shared_queue_tail ∧ x ≠ 0
          ∧ (s.mem x).qnext = 0 ∧ P.B2A (P.A2B x) = x
          ∧ ∃ L, itemChain P s.mem x L = true ∧ chainFuel L ≤ fuel) →
      (∀ y ∈ pend, ∃ L, itemChain P s.mem y L = true ∧ chainFuel L ≤ fuel) →
      ∃ rs s' ev, runOps P fuel ops s = some (rs, s')
        ∧ s'.trace = s.trace ++ ev
        ∧ freedNodes ev ++ [s'.handle.shared_queue_head]
            = s.handle.shared_queue_head :: gotItems rs
        ∧ (∀ z ∈ gotItems rs, z ∈ pend ∨ z ∈ putsOf ops)
        ∧ (s.handle.shared_queue_head :: gotItems rs).Nodup
        ∧ (∀ r ∈ putStatuses rs, r = 0) := by
  intro ops
  induction ops with
  | nil =>
    intro s pend _ _ _ _
    exact ⟨[], s, [], rfl, by simp, rfl, by simp [gotItems], by simp [gotItems],
      by simp [putStatuses]⟩
  | cons op rest ih =>
    intro s pend hl hnd hfresh hch
    cases op with
    | put x =>
      simp only [putsOf] at hnd hfresh
      obtain ⟨hnin, hxt, hx0, hxq, hBA, L, hc, hcf⟩ := hfresh x (by simp)
      obtain ⟨s1, pend1, hput, hl1, hp1, hmem1, hhead1, htail1, ev1, htr1, hfr1⟩ :=
        loose_put P fuel s pend x L hl hnin hxt hx0 hxq hBA hc hcf
      have hsub : ∀ z, z ∈ pend1 → z ∈ pend ∨ z = x := by
        intro z hz
        rcases hp1 with h | h
        · rw [h] at hz; exact Or.inl hz
        · rw [h, List.mem_append] at hz
          rcases hz with hz | hz
          · exact Or.inl hz
          · exact Or.inr (by simpa using hz)
      obtain ⟨rs, s', ev, hrun, htr, hfr, hin, hnodup, hst⟩ :=
        ih s1 pend1 hl1 (List.nodup_cons.mp hnd).2 (by
          intro b hb
          obtain ⟨hbn, hbt, hb0, hbq, hbBA, Lb, hbc, hbf⟩ := hfresh b (List.mem_cons_of_mem _ hb)
          have hbx : b ≠ x := by
            intro e
            subst e
            exact (List.nodup_cons.mp hnd).1 hb
          refine ⟨?_, by rw [htail1]; exact hbx, hb0, ?_, hbBA, Lb, ?_, hbf⟩
          · rw [hhead1]
            intro hm
            rcases List.mem_cons.mp hm with h | h
            · exact hbn (by simp [h])
            · rcases hsub b h with h' | h'
              · exact hbn (List.mem_cons_of_mem _ h')
              · exact hbx h'
          · rw [hmem1]
            simpa [setQnext, hbt] using hbq
          · rw [hmem1, itemChain_setQnext]
            exact hbc) (by
          intro y hy
          rw [hmem1]
          simp only [itemChain_setQnext]
          rcases hsub y hy with h | h
          · exact hch y h
          · subst h
            exact ⟨L, hc, hcf⟩)
      refine ⟨OpResult.status 0 :: rs, s', ev1 ++ ev, by simp [runOps, hput, hrun], ?_, ?_, ?_,
        ?_, ?_⟩
      · rw [htr, htr1, List.append_assoc]
      · rw [freedNodes_append, hfr1, List.nil_append, hfr, hhead1]
        rfl
      · intro z hz
        simp only [gotItems] at hz
        rcases hin z hz with h | h
        · rcases hsub z h with h' | h'
          · exact Or.inl h'
          · exact Or.inr (by simp [putsOf, h'])
        · exact Or.inr (by simp [putsOf, h])
      · simpa [gotItems, hhead1] using hnodup
      · intro r hr
        simp only [putStatuses, List.mem_cons] at hr
        rcases hr with h | h
        · exact h
        · exact hst r h
    | get =>
      simp only [putsOf] at hnd hfresh
      have hh : s.handle.shared_queue_head ≠ 0 := hl.2.2.2.2 _ (by simp)
      cases pend with
      | nil =>
        have hl0 := hl
        obtain ⟨⟨e, hq, _⟩, _⟩ := hl
        simp [qchain] at hq
        have hget := get_of_null_link P fuel s hh hq.2
        have hl1 : looseQueue P { s with trace := s.trace
            ++ [Event.inv s.handle.shared_queue_head P.sizeof_iobuf,
                Event.read s.handle.shared_queue_head Field.qnext,
                Event.read s.handle.shared_queue_head Field.qnext] } [] := hl0
        obtain ⟨rs, s', ev, hrun, htr, hfr, hin, hnodup, hst⟩ := ih _ [] hl1 hnd hfresh hch
        refine ⟨OpResult.item 0 :: rs, s',
          [Event.inv s.handle.shared_queue_head P.sizeof_iobuf,
           Event.read s.handle.shared_queue_head Field.qnext,
           Event.read s.handle.shared_queue_head Field.qnext] ++ ev,
          by simp [runOps, hget, hrun], ?_, ?_, ?_, ?_, ?_⟩
        · rw [htr, List.append_assoc]
        · simpa [freedNodes_append, freedNodes, gotItems] using hfr
        · intro z hz
          simp only [gotItems, if_true] at hz
          exact hin z hz
        · simpa [gotItems] using hnodup
        · intro r hr
          simp only [putStatuses] at hr
          exact hst r hr
      | cons y ys =>
        obtain ⟨L, hc, hcf⟩ := hch y (by simp)
        have hy0 : y ≠ 0 := hl.2.2.2.2 y (by simp)
        have hndp : (s.handle.shared_queue_head :: y :: ys).Nodup := hl.2.2.2.1
        obtain ⟨s1, hget, hl1, hmem1, hhead1, htail1, ev1, htr1, hfr1⟩ :=
          loose_get P fuel s y ys L hl hc hcf
        obtain ⟨rs, s', ev, hrun, htr, hfr, hin, hnodup, hst⟩ := ih s1 ys hl1 hnd (by
            intro b hb
            obtain ⟨hbn, hbt, hb0, hbq, hbBA, Lb, hbc, hbf⟩ := hfresh b hb
            have hbh : b ≠ s.handle.shared_queue_head := fun e => hbn (by simp [e])
            refine ⟨?_, by rw [htail1]; exact hbt, hb0, ?_, hbBA, Lb, ?_, hbf⟩
            · rw [hhead1]
              intro hm
              exact hbn (List.mem_cons_of_mem _ hm)
            · rw [hmem1]
              simpa [setQnext, hbh] using hbq
            · rw [hmem1, itemChain_setQnext]
              exact hbc) (by
            intro z hz
            rw [hmem1]
            simp only [itemChain_setQnext]
            exact hch z (List.mem_cons_of_mem _ hz))
        refine ⟨OpResult.item y :: rs, s', ev1 ++ ev, by simp [runOps, hget, hrun], ?_, ?_, ?_,
          ?_, ?_⟩
        · rw [htr, htr1, List.append_assoc]
        · rw [freedNodes_append, hfr1, List.append_assoc, hfr, hhead1]
          simp [gotItems, hy0]
        · intro z hz
          simp only [gotItems, hy0, if_false, List.mem_cons] at hz
          rcases hz with h | h
          · exact Or.inl (by simp [h])
          · rcases hin z h with h' | h'
            · exact Or.inl (List.mem_cons_of_mem _ h')
            · exact Or.inr h'
        · simp only [gotItems, hy0, if_false]
          rw [hhead1] at hnodup
          refine List.nodup_cons.mpr ⟨?_, hnodup⟩
          intro hm
          rcases List.mem_cons.mp hm with h | h
          · exact (List.nodup_cons.mp hndp).1 (by simp [h])
          · rcases hin _ h with h' | h'
            · exact (List.nodup_cons.mp hndp).1 (List.mem_cons_of_mem _ h')
            · exact (hfresh _ h').1 (by simp)
        · intro r hr
          simp only [putStatuses] at hr
          exact hst r hr

/-- C13: the guard is released exactly once.  Start from an initialized
well-formed queue with guard G (empty, or with pending items that head finite
chains) and run any sequence of gets and of puts of pairwise distinct fresh
buffers (not null, not already on the queue, null queue link, surviving the round
trip of the translations, heading finite chains that the fuel covers).  Then
every call returns, every put returns 0, and the nodes handed to
`nvshm_iobuf_free_cluster` followed by the final head are G followed by the
items the gets returned: get frees G at its first successful call and then, at
each successful call, the item returned by the one before.  So no node is freed
twice, and the current head, which is the item returned last, is not freed. -/
theorem guard_released_once (P : Platform) (fuel : Nat) (s : State) (pend : List Nat)
    (ops : List QueueOp)
    (hwf : wfQueue P s pend)
    (hch : ∀ y ∈ pend, ∃ L, itemChain P s.mem y L = true ∧ chainFuel L ≤ fuel)
    (hnd : (putsOf ops).Nodup)
    (hfresh : ∀ x ∈ putsOf ops, x ≠ 0 ∧ x ∉ s.handle.shared_queue_head :: pend
        ∧ (s.mem x).qnext = 0 ∧ P.B2A (P.A2B x) = x
        ∧ ∃ L, itemChain P s.mem x L = true ∧ chainFuel L ≤ fuel) :
    ∃ rs s' ev, runOps P fuel ops s = some (rs, s')
      ∧ (∀ r ∈ putStatuses rs, r = 0)
      ∧ s'.trace = s.trace ++ ev
      ∧ freedNodes ev ++ [s'.handle.shared_queue_head]
          = s.handle.shared_queue_head :: gotItems rs
      ∧ freedNodes ev = (s.handle.shared_queue_head :: gotItems rs).dropLast
      ∧ (freedNodes ev).Nodup
      ∧ s'.handle.shared_queue_head ∉ freedNodes ev := by
  obtain ⟨htq, htin, _⟩ := qchain_tail P s.mem _ pend _ hwf.1
  have hl : looseQueue P s pend :=
    ⟨⟨s.handle.shared_queue_tail, hwf.1, Or.inl rfl⟩, htq, hwf.2.2 _ htin, hwf.2.1, hwf.2.2⟩
  obtain ⟨rs, s', ev, hrun, htr, hfr, _, hnodup, hst⟩ :=
    loose_run P fuel ops s pend hl hnd (by
      intro x hx
      obtain ⟨hx0, hxn, hxq, hBA, hL⟩ := hfresh x hx
      exact ⟨hxn, fun e => hxn (e ▸ htin), hx0, hxq, hBA, hL⟩) hch
  rw [← hfr] at hnodup
  have hnd2 := List.nodup_append.mp hnodup
  refine ⟨rs, s', ev, hrun, hst, htr, hfr, by rw [← hfr, List.dropLast_concat], hnd2.1, ?_⟩
  intro hm
  exact hnd2.2.2 hm (by simp)

/-- Witness for C13: on the sample empty queue with guard 4144, put 4192, get,
put 4240, get: the gets return 4192 and 4240 and free 4144 and then 4192, the
guard 4144 exactly once, and the head 4240 is not freed. -/
theorem guard_released_once_witness :
    ∃ s' ev,
      runOps demoPlatform 2
          [QueueOp.put 4192, QueueOp.get, QueueOp.put 4240, QueueOp.get] demoEmpty
        = some ([OpResult.status 0, OpResult.item 4192, OpResult.status 0,
                 OpResult.item 4240], s')
      ∧ s'.trace = demoEmpty.trace ++ ev
      ∧ freedNodes ev = [4144, 4192]
      ∧ (freedNodes ev).count 4144 = 1
      ∧ s'.handle.shared_queue_head = 4240 := by
  obtain ⟨rs, s', ev, hrun, _, htr, hfr, _, _, _⟩ :=
    guard_released_once demoPlatform 2 demoEmpty []
      [QueueOp.put 4192, QueueOp.get, QueueOp.put 4240, QueueOp.get]
      ⟨by decide, by decide, by decide⟩ (by intro y hy; simp at hy) (by decide) (by
        intro x hx
        simp only [putsOf, List.mem_cons, List.mem_singleton, List.not_mem_nil,
          or_false] at hx
        rcases hx with rfl | rfl
        · exact ⟨by decide, by decide, by decide, by decide, [[4192]], by decide, by decide⟩
        · exact ⟨by decide, by decide, by decide, by decide, [[4240]], by decide, by decide⟩)
  have e := hrun.symm.trans (rfl : runOps demoPlatform 2
      [QueueOp.put 4192, QueueOp.get, QueueOp.put 4240, QueueOp.get] demoEmpty = some (_, _))
  obtain ⟨hrs, hs'⟩ := Prod.mk.inj (Option.some.inj e)
  subst hrs
  have hhead : s'.handle.shared_queue_head = 4240 := by rw [hs']; rfl
  have hfreed : freedNodes ev = [4144, 4192] := by
    have h2 := hfr
    rw [hhead] at h2
    have h3 : freedNodes ev ++ [4240] = [4144, 4192] ++ [4240] := by
      rw [h2]; decide
    exact List.append_cancel_right h3
  exact ⟨s', ev, hrun, htr, hfreed, by rw [hfreed]; decide, hhead⟩

end Nvshm
